import Mathlib

/-!
# Verification of the snaplab local pixel-signal analysis engine

Shallow embedding of the core algorithms of the repository:

* `floodFill`            — src/services/imageProcessing.ts, `floodFill`
* `filterLargestComponent` — src/services/imageProcessing.ts, `filterLargestComponent`
* `detectAxis`           — src/services/localSplitService.ts, `detectAxis`

Pixel buffers are flat `List ℤ` of bytes (RGBA interleaved), masks are flat
`List ℚ` of float scores.  JavaScript number arithmetic is modelled with exact
rationals; the one use of `Math.sqrt` (the peak threshold
`s > mean + 3.5 * stdDev`) is embedded by the equivalent squared comparison
`mean < s ∧ (3.5)^2 * variance < (s - mean)^2`, which is exact over ℚ.
Out-of-range typed-array reads (JS `undefined`) are modelled by `List.getD`
with default `0`; in both semantics every comparison against such a read is
falsy, and the theorems below only depend on in-range reads.
-/

namespace SnapLab

/-! ## Seam detection: `detectAxis` (src/services/localSplitService.ts lines 48-235)

`isH = true` is `SplitDirection.HORIZONTAL` (limit = height, crossLimit = width).
-/

/-- Byte read `data[k]` as a rational (JS reads the typed array as a number). -/
def byteAt (data : List ℤ) (k : ℕ) : ℚ := ((data.getD k 0 : ℤ) : ℚ)

/-- The sample positions `j = 0, step, 2*step, ...` of the loop
`for (let j = 0; j < crossLimit; j += step)`. -/
def samplePositions (crossLimit step : ℕ) : List ℕ :=
  List.range' 0 ((crossLimit + step - 1) / step) step

/-- `idx = isHorizontal ? (i * width + j) * 4 : (j * width + i) * 4`. -/
def pixelBase (width : ℕ) (isH : Bool) (i j : ℕ) : ℕ :=
  if isH then (i * width + j) * 4 else (j * width + i) * 4

/-- The accumulation `sum`, `sumSq`, `count` of the variance loop
(lines 63-82 of localSplitService.ts). -/
def lineStats (data : List ℤ) (width : ℕ) (isH : Bool) (crossLimit i : ℕ) :
    ℚ × ℚ × ℕ :=
  (samplePositions crossLimit 4).foldl
    (fun acc j =>
      let idx := pixelBase width isH i j
      let val := (byteAt data idx + byteAt data (idx + 1) + byteAt data (idx + 2)) / 3
      (acc.1 + val, acc.2.1 + val * val, acc.2.2 + 1))
    (0, 0, 0)

/-- `variances[i] = (sumSq / count) - (mean * mean)` (lines 84-86). -/
def lineVariance (data : List ℤ) (width : ℕ) (isH : Bool) (crossLimit i : ℕ) : ℚ :=
  let s := lineStats data width isH crossLimit i
  let mean := s.1 / (s.2.2 : ℚ)
  s.2.1 / (s.2.2 : ℚ) - mean * mean

/-- The variance profile `variances` over axis indices `0 .. limit-1`. -/
def varianceProfile (data : List ℤ) (width : ℕ) (isH : Bool) (limit crossLimit : ℕ) :
    List ℚ :=
  (List.range limit).map (lineVariance data width isH crossLimit)

/-- The low-variance gap scan (lines 91-119): state machine over the variance
profile collecting midpoints `⌊(gapStart + gapEnd) / 2⌋` of runs
`variances[i] < 100` of length ≥ 3 (`gapEnd - gapStart >= 2`). -/
def gapScanGo : List ℚ → ℕ → Bool → ℕ → List ℕ → List ℕ
  | [], i, inGap, gapStart, acc =>
      -- handle gap at the very end: gapEnd = limit - 1
      if inGap then
        if 2 ≤ (i - 1) - gapStart then acc ++ [(gapStart + (i - 1)) / 2] else acc
      else acc
  | v :: rest, i, inGap, gapStart, acc =>
      if v < 100 then
        if inGap then gapScanGo rest (i + 1) true gapStart acc
        else gapScanGo rest (i + 1) true i acc
      else
        if inGap then
          gapScanGo rest (i + 1) false gapStart
            (if 2 ≤ (i - 1) - gapStart then acc ++ [(gapStart + (i - 1)) / 2] else acc)
        else gapScanGo rest (i + 1) false gapStart acc

/-- `gaps` (lines 96-119). -/
def findGaps (vars : List ℚ) : List ℕ := gapScanGo vars 0 false 0 []

/-- The gradient of line `i ≥ 1` against line `i - 1`, sampled at stride 2 and
normalized by `crossLimit / 2` (lines 124-137). -/
def lineGradient (data : List ℤ) (width : ℕ) (isH : Bool) (crossLimit i : ℕ) : ℚ :=
  let diffSum := (samplePositions crossLimit 2).foldl
    (fun acc j =>
      let idx1 := pixelBase width isH i j
      let idx2 := pixelBase width isH (i - 1) j
      acc + (|byteAt data idx1 - byteAt data idx2|
        + |byteAt data (idx1 + 1) - byteAt data (idx2 + 1)|
        + |byteAt data (idx1 + 2) - byteAt data (idx2 + 2)|))
    0
  diffSum / ((crossLimit : ℚ) / 2)

/-- `scores` (lines 124-137): index 0 is left at its zero initialization. -/
def gradientProfile (data : List ℤ) (width : ℕ) (isH : Bool) (limit crossLimit : ℕ) :
    List ℚ :=
  (List.range limit).map (fun i => if i = 0 then 0 else lineGradient data width isH crossLimit i)

/-- The centered moving average (lines 139-148): interior indices
`window ≤ i < limit - window` get the mean of the `2*window+1` surrounding
scores, all other indices keep the `Float32Array` zero initialization. -/
def smoothScores (scores : List ℚ) (limit window : ℕ) : List ℚ :=
  (List.range limit).map (fun i =>
    if window ≤ i ∧ i < limit - window then
      ((List.range (2 * window + 1)).foldl
        (fun s k => s + scores.getD (i - window + k) 0) 0) / (2 * window + 1 : ℚ)
    else 0)

/-- Mean of the strictly positive smoothed scores
(`nonZeroScores.reduce((a,b) => a+b, 0) / nonZeroScores.length`, line 153). -/
def listMean (l : List ℚ) : ℚ := l.foldl (· + ·) 0 / (l.length : ℚ)

/-- Population variance of the strictly positive smoothed scores (line 154). -/
def listVar (l : List ℚ) (mean : ℚ) : ℚ :=
  (l.foldl (fun a b => a + (b - mean) ^ 2) 0) / (l.length : ℚ)

/-- `smoothedScores[i] > mean + 3.5 * stdDev` (lines 155-159), embedded by the
equivalent squared comparison (exact over ℚ, `stdDev = √variance ≥ 0`). -/
def exceedsThreshold (s mean vr : ℚ) : Bool :=
  decide (mean < s ∧ (49 / 4 : ℚ) * vr < (s - mean) ^ 2)

/-- The local-maximum test over the window
`[max(0, i-10), min(limit, i+10))` (lines 167-177). -/
def isLocalMax (sm : List ℚ) (limit i : ℕ) : Bool :=
  (List.range' (i - 10) (min limit (i + 10) - (i - 10))).all
    (fun k => !decide (sm.getD i 0 < sm.getD k 0))

/-- The greedy strongest-first spacing loop (lines 196-205): repeatedly accept
the head of the score-descending candidate list and drop every candidate
within `minD` of it.  Each iteration removes at least the accepted candidate,
so fuel `candidates.length` always suffices. -/
def greedyPick : ℕ → List (ℕ × ℚ) → ℚ → List ℕ
  | 0, _, _ => []
  | _ + 1, [], _ => []
  | fuel + 1, best :: rest, minD =>
      best.1 ::
        greedyPick fuel
          ((best :: rest).filter fun c => decide (minD ≤ |(c.1 : ℚ) - (best.1 : ℚ)|))
          minD

/-- `filteredEdges` (lines 184-208): sort candidates by score descending
(stable, like the JS sort), run the greedy spacing loop, re-sort the accepted
indices ascending. -/
def filterEdgesByDistance (edges : List ℕ) (sm : List ℚ) (minD : ℚ) : List ℕ :=
  let candidates := edges.map (fun i => (i, sm.getD i 0))
  let sorted := candidates.mergeSort (fun a b => decide (b.2 ≤ a.2))
  let selected := greedyPick sorted.length sorted minD
  selected.mergeSort (fun a b => decide (a ≤ b))

/-- `edges` after peak detection and spacing filter (lines 150-209). -/
def detectEdges (sm : List ℚ) (limit : ℕ) : List ℕ :=
  let nonZero := sm.filter (fun s => decide (0 < s))
  if nonZero.length = 0 then []
  else
    let mean := listMean nonZero
    let vr := listVar nonZero mean
    let minDistance : ℚ := max 50 ((limit : ℚ) / 15)
    let edges := (List.range limit).filter (fun i =>
      decide (1 ≤ i) && decide (i < limit - 1)
        && exceedsThreshold (sm.getD i 0) mean vr && isLocalMax sm limit i)
    filterEdgesByDistance edges sm minDistance

/-- Combination of the two channels (lines 211-235): gaps inside the 2% margin
first, then edges inside the margin that are ≥ 20px from every already
accepted split, finally sorted ascending. -/
def combineSplits (gaps edges : List ℕ) (limit : ℕ) : List ℕ :=
  let margin : ℚ := (limit : ℚ) * (2 / 100)
  let withGaps := gaps.filter
    (fun (g : ℕ) => decide (margin < (g : ℚ) ∧ (g : ℚ) < (limit : ℚ) - margin))
  let withEdges := edges.foldl
    (fun (acc : List ℕ) (e : ℕ) =>
      if decide ((e : ℚ) ≤ margin) || decide ((limit : ℚ) - margin ≤ (e : ℚ)) then acc
      else if acc.any (fun s => decide (|(s : ℤ) - (e : ℤ)| < 20)) then acc
      else acc ++ [e])
    withGaps
  withEdges.mergeSort (fun a b => decide (a ≤ b))

/-- `detectAxis` (src/services/localSplitService.ts lines 48-235). -/
def detectAxis (data : List ℤ) (width height : ℕ) (isH : Bool) : List ℕ :=
  let limit := if isH then height else width
  let crossLimit := if isH then width else height
  let vars := varianceProfile data width isH limit crossLimit
  let gaps := findGaps vars
  let scores := gradientProfile data width isH limit crossLimit
  let sm := smoothScores scores limit 2
  let edges := detectEdges sm limit
  combineSplits gaps edges limit

/-! ## Generic list helpers -/

theorem foldl_add_eq_sum (f : ℕ → ℚ) (n : ℕ) (init : ℚ) :
    (List.range n).foldl (fun s k => s + f k) init = init + ∑ k ∈ Finset.range n, f k := by
  induction n with
  | zero => simp
  | succ m ih =>
      rw [List.range_succ, List.foldl_append, ih, Finset.sum_range_succ]
      simp [add_assoc]

theorem getD_map_range {α : Type} (f : ℕ → α) (n i : ℕ) (h : i < n) (d : α) :
    ((List.range n).map f).getD i d = f i := by
  simp [List.getD_eq_getElem?_getD, List.getElem?_map, List.getElem?_range h]

/-! ## C8: the smoothing step -/

/-- C8 (amended): the smoothing step is a centered moving average on the
interior of the profile and zero on the borders: for every score profile of
length `limit` and window `w`, the smoothed profile has length `limit`, equals
the mean of the `2*w+1` surrounding input values at every index
`w ≤ i < limit - w`, and equals `0` (the `Float32Array` initialization), not
the input value, at every other index `i < limit`. -/
theorem smoothScores_centered_average (scores : List ℚ) (limit window i : ℕ) :
    (smoothScores scores limit window).length = limit ∧
    (window ≤ i → i < limit - window →
      (smoothScores scores limit window).getD i 0 =
        (∑ k ∈ Finset.Icc (i - window) (i + window), scores.getD k 0)
          / (2 * window + 1 : ℚ)) ∧
    (i < limit → ¬(window ≤ i ∧ i < limit - window) →
      (smoothScores scores limit window).getD i 0 = 0) := by
  refine ⟨by simp [smoothScores], ?_, ?_⟩
  · intro h1 h2
    have hi : i < limit := lt_of_lt_of_le h2 (Nat.sub_le _ _)
    rw [smoothScores, getD_map_range _ _ _ hi, if_pos ⟨h1, h2⟩,
      foldl_add_eq_sum (fun k => scores.getD (i - window + k) 0), zero_add,
      ← Nat.Ico_succ_right, Finset.sum_Ico_eq_sum_range]
    have hcount : i + window + 1 - (i - window) = 2 * window + 1 := by omega
    rw [hcount]
  · intro hi hneg
    rw [smoothScores, getD_map_range _ _ _ hi, if_neg hneg]

/-- C8 counterexample: on the profile `[0, 9, 0, 0]` with window 2 the border
index 1 of the smoothed profile is `0`, not the unmodified input value `9`. -/
theorem smoothScores_border_not_input :
    (smoothScores [0, 9, 0, 0] 4 2).getD 1 0 ≠ ([0, 9, 0, 0] : List ℚ).getD 1 0 := by
  decide

/-- Witness for `smoothScores_centered_average` at the profile
`[1, 2, 3, 4, 5, 6]`, window 2, index 2. -/
theorem smoothScores_centered_average_witness :
    (2 ≤ 2 ∧ 2 < 6 - 2) ∧
      ((smoothScores [1, 2, 3, 4, 5, 6] 6 2).length = 6 ∧
        (2 ≤ 2 → 2 < 6 - 2 →
          (smoothScores [1, 2, 3, 4, 5, 6] 6 2).getD 2 0 =
            (∑ k ∈ Finset.Icc (2 - 2) (2 + 2),
              ([1, 2, 3, 4, 5, 6] : List ℚ).getD k 0) / (2 * 2 + 1 : ℚ)) ∧
        (2 < 6 → ¬(2 ≤ 2 ∧ 2 < 6 - 2) →
          (smoothScores [1, 2, 3, 4, 5, 6] 6 2).getD 2 0 = 0)) :=
  ⟨by decide, smoothScores_centered_average [1, 2, 3, 4, 5, 6] 6 2 2⟩

/-! ## C5: the greedy strongest-first spacing filter -/

theorem greedyPick_subset (fuel : ℕ) : ∀ (cands : List (ℕ × ℚ)) (minD : ℚ) (a : ℕ),
    a ∈ greedyPick fuel cands minD → ∃ c ∈ cands, c.1 = a := by
  induction fuel with
  | zero => intro cands minD a h; simp [greedyPick] at h
  | succ n ih =>
      intro cands minD a h
      match cands with
      | [] => simp [greedyPick] at h
      | best :: rest =>
          rw [greedyPick] at h
          rcases List.mem_cons.mp h with rfl | h
          · exact ⟨best, List.mem_cons_self _ _, rfl⟩
          · obtain ⟨c, hc, rfl⟩ := ih _ _ _ h
            exact ⟨c, List.mem_of_mem_filter hc, rfl⟩

theorem greedyPick_pairwise (fuel : ℕ) : ∀ (cands : List (ℕ × ℚ)) (minD : ℚ),
    0 < minD → cands.length ≤ fuel →
    List.Pairwise (fun a b : ℕ => minD ≤ |(a : ℚ) - (b : ℚ)|)
      (greedyPick fuel cands minD) := by
  induction fuel with
  | zero => intro cands minD _ _; simp [greedyPick]
  | succ n ih =>
      intro cands minD hmD hl
      match cands with
      | [] => simp [greedyPick]
      | best :: rest =>
          rw [greedyPick]
          have hfilter : ((best :: rest).filter
              fun c => decide (minD ≤ |(c.1 : ℚ) - (best.1 : ℚ)|)) =
              rest.filter fun c => decide (minD ≤ |(c.1 : ℚ) - (best.1 : ℚ)|) := by
            rw [List.filter_cons_of_neg]
            simp only [decide_eq_true_eq, not_le, sub_self, abs_zero]
            exact hmD
          refine List.Pairwise.cons ?_ (ih _ _ hmD ?_)
          · intro a ha
            obtain ⟨c, hc, rfl⟩ := greedyPick_subset _ _ _ _ ha
            have h2 : minD ≤ |(c.1 : ℚ) - (best.1 : ℚ)| := by
              have := (List.mem_filter.mp hc).2
              simpa using this
            rwa [abs_sub_comm]
          · rw [hfilter]
            calc (rest.filter _).length ≤ rest.length := List.length_filter_le _ _
              _ ≤ n := by simpa using Nat.succ_le_succ_iff.mp hl

/-- The head of the score-descending stable sort has maximal score. -/
theorem mergeSort_desc_head_max (l : List (ℕ × ℚ)) (c : ℕ × ℚ) (t : List (ℕ × ℚ))
    (h : l.mergeSort (fun a b => decide (b.2 ≤ a.2)) = c :: t) :
    ∀ d ∈ l, d.2 ≤ c.2 := by
  have hs : (l.mergeSort (fun a b => decide (b.2 ≤ a.2))).Pairwise
      (fun a b => decide (b.2 ≤ a.2)) := by
    refine List.sorted_mergeSort ?_ ?_ l
    · intro a b c h1 h2
      simp only [decide_eq_true_eq] at h1 h2 ⊢
      exact le_trans h2 h1
    · intro a b
      rcases le_total b.2 a.2 with h | h <;> simp [h]
  rw [h, List.pairwise_cons] at hs
  intro d hd
  have : d ∈ c :: t := by
    rw [← h]; exact (List.mem_mergeSort).mpr hd
  rcases List.mem_cons.mp this with rfl | hdt
  · exact le_refl _
  · exact of_decide_eq_true (hs.1 d hdt)

/-- C5: for every candidate list, smoothed profile and positive `minDistance`,
the greedy strongest-first spacing filter returns a list in which every two
distinct accepted indices differ by at least `minDistance` (in particular every
pair of adjacent accepted indices does), and some candidate of globally
maximal smoothed score is among the accepted indices. -/
theorem filterEdges_spacing_and_strongest (edges : List ℕ) (sm : List ℚ) (minD : ℚ)
    (hmD : 0 < minD) :
    List.Pairwise (fun a b : ℕ => minD ≤ |(a : ℚ) - (b : ℚ)|)
      (filterEdgesByDistance edges sm minD) ∧
    (edges ≠ [] → ∃ c ∈ edges, (∀ d ∈ edges, sm.getD d 0 ≤ sm.getD c 0) ∧
      c ∈ filterEdgesByDistance edges sm minD) := by
  have habs : Symmetric (fun a b : ℕ => minD ≤ |(a : ℚ) - (b : ℚ)|) := by
    intro a b h; rwa [abs_sub_comm]
  rw [filterEdgesByDistance]
  set cands := edges.map (fun i => (i, sm.getD i 0)) with hcands
  set sorted := cands.mergeSort (fun a b => decide (b.2 ≤ a.2)) with hsorted
  set selected := greedyPick sorted.length sorted minD with hselected
  constructor
  · have hp : List.Pairwise (fun a b : ℕ => minD ≤ |(a : ℚ) - (b : ℚ)|) selected :=
      greedyPick_pairwise _ _ _ hmD le_rfl
    exact ((List.mergeSort_perm selected _).pairwise_iff
      (fun {x y} h => habs h)).mpr hp
  · intro hne
    have hcne : cands ≠ [] := by
      rw [hcands]
      intro h
      exact hne (List.map_eq_nil_iff.mp h)
    have hsne : sorted ≠ [] := by
      intro h
      have hperm := List.mergeSort_perm cands (fun a b => decide (b.2 ≤ a.2))
      rw [← hsorted, h] at hperm
      exact hcne hperm.symm.eq_nil
    obtain ⟨c, t, hct⟩ := List.exists_cons_of_ne_nil hsne
    have hcmem : c ∈ cands := by
      rw [← @List.mem_mergeSort _ (fun a b : ℕ × ℚ => decide (b.2 ≤ a.2)) _ _, ← hsorted, hct]
      exact List.mem_cons_self _ _
    obtain ⟨i, hi, hic⟩ := List.mem_map.mp (hcands ▸ hcmem)
    have hmax : ∀ d ∈ cands, d.2 ≤ c.2 := mergeSort_desc_head_max cands c t (hsorted ▸ hct)
    refine ⟨i, hi, ?_, ?_⟩
    · intro d hd
      have : (d, sm.getD d 0) ∈ cands := by
        rw [hcands]; exact List.mem_map_of_mem _ hd
      have := hmax _ this
      simpa [← hic] using this
    · have hhead : c.1 ∈ selected := by
        rw [hselected, hct]
        have : t.length + 1 = (c :: t).length := rfl
        simp [List.length_cons, greedyPick]
      rw [List.mem_mergeSort]
      simpa [← hic] using hhead

/-- Witness for `filterEdges_spacing_and_strongest` at
`edges = [10, 12, 40]`, `sm = []`, `minDistance = 5`. -/
theorem filterEdges_spacing_and_strongest_witness :
    (0 : ℚ) < 5 ∧
      (List.Pairwise (fun a b : ℕ => (5 : ℚ) ≤ |(a : ℚ) - (b : ℚ)|)
        (filterEdgesByDistance [10, 12, 40] [] 5) ∧
      ([10, 12, 40] ≠ ([] : List ℕ) → ∃ c ∈ [10, 12, 40],
        (∀ d ∈ [10, 12, 40], ([] : List ℚ).getD d 0 ≤ ([] : List ℚ).getD c 0) ∧
        c ∈ filterEdgesByDistance [10, 12, 40] [] 5)) :=
  ⟨by norm_num, filterEdges_spacing_and_strongest [10, 12, 40] [] 5 (by norm_num)⟩

/-! ## C4: the split lists are strictly increasing and inside the margin -/

theorem pairwise_append_singleton_lt (acc : List ℕ) (m : ℕ)
    (hp : List.Pairwise (· < ·) acc) (hall : ∀ a ∈ acc, a < m) :
    List.Pairwise (· < ·) (acc ++ [m]) := by
  refine List.pairwise_append.mpr ⟨hp, List.pairwise_singleton _ _, ?_⟩
  intro a ha b hb
  simp only [List.mem_singleton] at hb
  subst hb
  exact hall a ha

theorem gapScanGo_pairwise :
    ∀ (vals : List ℚ) (i : ℕ) (inGap : Bool) (gapStart : ℕ) (acc : List ℕ),
    List.Pairwise (· < ·) acc →
    (inGap = true → gapStart < i ∧ ∀ e ∈ acc, e < gapStart) →
    (inGap = false → ∀ e ∈ acc, e < i) →
    List.Pairwise (· < ·) (gapScanGo vals i inGap gapStart acc) := by
  intro vals
  induction vals with
  | nil =>
      intro i inGap gapStart acc hp hgap hout
      cases inGap with
      | false => simpa [gapScanGo] using hp
      | true =>
          obtain ⟨hgi, hacc⟩ := hgap rfl
          by_cases hlen : 2 ≤ (i - 1) - gapStart
          · simp only [gapScanGo, if_pos rfl, if_pos hlen]
            refine pairwise_append_singleton_lt acc _ hp ?_
            intro a ha
            have := hacc a ha
            omega
          · simpa [gapScanGo, hlen] using hp
  | cons v rest ih =>
      intro i inGap gapStart acc hp hgap hout
      by_cases hv : v < 100
      · cases inGap with
        | false =>
            have hacc := hout rfl
            rw [gapScanGo, if_pos hv]
            refine ih (i + 1) true i acc hp ?_ (by simp)
            intro _
            exact ⟨Nat.lt_succ_self _, hacc⟩
        | true =>
            obtain ⟨hgi, hacc⟩ := hgap rfl
            rw [gapScanGo, if_pos hv]
            refine ih (i + 1) true gapStart acc hp ?_ (by simp)
            intro _
            exact ⟨Nat.lt_succ_of_lt hgi, hacc⟩
      · cases inGap with
        | false =>
            have hacc := hout rfl
            rw [gapScanGo, if_neg hv]
            refine ih (i + 1) false gapStart acc hp (by simp) ?_
            intro _ e he
            exact Nat.lt_succ_of_lt (hacc e he)
        | true =>
            obtain ⟨hgi, hacc⟩ := hgap rfl
            rw [gapScanGo, if_neg hv]
            by_cases hlen : 2 ≤ (i - 1) - gapStart
            · rw [if_pos rfl, if_pos hlen]
              refine ih (i + 1) false gapStart _ ?_ (by simp) ?_
              · refine pairwise_append_singleton_lt acc _ hp ?_
                intro a ha
                have := hacc a ha
                omega
              · intro _ e he
                rcases List.mem_append.mp he with he | he
                · have := hacc e he
                  omega
                · simp only [List.mem_singleton] at he
                  subst he
                  omega
            · rw [if_pos rfl, if_neg hlen]
              refine ih (i + 1) false gapStart acc hp (by simp) ?_
              intro _ e he
              have := hacc e he
              omega

theorem findGaps_pairwise (vars : List ℚ) : List.Pairwise (· < ·) (findGaps vars) := by
  refine gapScanGo_pairwise vars 0 false 0 [] (List.Pairwise.nil) (by simp) (by simp)

/-- The edge-insertion fold of `combineSplits` keeps all elements pairwise
distinct and inside the margin. -/
theorem combineFold_invariant (limit : ℕ) (margin : ℚ) :
    ∀ (es acc : List ℕ),
    List.Pairwise (· ≠ ·) acc →
    (∀ x ∈ acc, margin < (x : ℚ) ∧ (x : ℚ) < (limit : ℚ) - margin) →
    List.Pairwise (· ≠ ·)
      (es.foldl (fun (acc : List ℕ) (e : ℕ) =>
        if decide ((e : ℚ) ≤ margin) || decide ((limit : ℚ) - margin ≤ (e : ℚ)) then acc
        else if acc.any (fun s => decide (|(s : ℤ) - (e : ℤ)| < 20)) then acc
        else acc ++ [e]) acc) ∧
    ∀ x ∈ (es.foldl (fun (acc : List ℕ) (e : ℕ) =>
        if decide ((e : ℚ) ≤ margin) || decide ((limit : ℚ) - margin ≤ (e : ℚ)) then acc
        else if acc.any (fun s => decide (|(s : ℤ) - (e : ℤ)| < 20)) then acc
        else acc ++ [e]) acc),
      margin < (x : ℚ) ∧ (x : ℚ) < (limit : ℚ) - margin := by
  intro es
  induction es with
  | nil => intro acc hp hb; exact ⟨hp, hb⟩
  | cons e rest ih =>
      intro acc hp hb
      simp only [List.foldl_cons]
      split
      · exact ih acc hp hb
      · rename_i hmargin
        split
        · exact ih acc hp hb
        · rename_i hdup
          refine ih (acc ++ [e]) ?_ ?_
          · refine List.pairwise_append.mpr ⟨hp, List.pairwise_singleton _ _, ?_⟩
            intro a ha b hbmem
            simp only [List.mem_singleton] at hbmem
            subst hbmem
            intro haeq
            subst haeq
            apply hdup
            rw [List.any_eq_true]
            exact ⟨a, ha, by simp⟩
          · intro x hx
            rcases List.mem_append.mp hx with hx | hx
            · exact hb x hx
            · simp only [List.mem_singleton] at hx
              subst hx
              simp only [Bool.or_eq_true, decide_eq_true_eq, not_or] at hmargin
              push_neg at hmargin
              exact ⟨hmargin.1, hmargin.2⟩

theorem combineSplits_spec (gaps edges : List ℕ) (limit : ℕ)
    (hg : List.Pairwise (· < ·) gaps) :
    List.Pairwise (· < ·) (combineSplits gaps edges limit) ∧
    ∀ x ∈ combineSplits gaps edges limit,
      (limit : ℚ) * (2 / 100) < (x : ℚ) ∧
      (x : ℚ) < (limit : ℚ) - (limit : ℚ) * (2 / 100) := by
  rw [combineSplits]
  set margin : ℚ := (limit : ℚ) * (2 / 100) with hmargin
  set withGaps := gaps.filter
    (fun (g : ℕ) => decide (margin < (g : ℚ) ∧ (g : ℚ) < (limit : ℚ) - margin))
    with hwithGaps
  have hgp : List.Pairwise (· ≠ ·) withGaps :=
    (hg.filter _).imp (fun h => Nat.ne_of_lt h)
  have hgb : ∀ x ∈ withGaps, margin < (x : ℚ) ∧ (x : ℚ) < (limit : ℚ) - margin := by
    intro x hx
    have := (List.mem_filter.mp hx).2
    simpa using this
  obtain ⟨hfp, hfb⟩ := combineFold_invariant limit margin edges withGaps hgp hgb
  set withEdges := edges.foldl _ withGaps with hwithEdges
  have hperm := List.mergeSort_perm withEdges (fun a b : ℕ => decide (a ≤ b))
  have hsorted : (withEdges.mergeSort (fun a b : ℕ => decide (a ≤ b))).Pairwise
      (fun a b : ℕ => decide (a ≤ b)) := by
    refine List.sorted_mergeSort ?_ ?_ withEdges
    · intro a b c h1 h2
      simp only [decide_eq_true_eq] at h1 h2 ⊢
      omega
    · intro a b
      rcases Nat.le_total a b with h | h <;> simp [h]
  constructor
  · have hle : (withEdges.mergeSort (fun a b : ℕ => decide (a ≤ b))).Pairwise (· ≤ ·) :=
      hsorted.imp (fun h => by simpa using h)
    have hne : (withEdges.mergeSort (fun a b : ℕ => decide (a ≤ b))).Pairwise (· ≠ ·) :=
      (hperm.pairwise_iff (fun {x y} h => h.symm)).mpr hfp
    exact (hle.and hne).imp (fun h => lt_of_le_of_ne h.1 h.2)
  · intro x hx
    exact hfb x (hperm.mem_iff.mp hx)

/-- C4: for every pixel buffer and either axis, `detectAxis` returns a
strictly increasing list of integers, each strictly between 0 and the axis
limit, in fact strictly inside `(margin, limit - margin)` where
`margin = limit * 0.02`. -/
theorem detectAxis_strictly_increasing_inside_margin
    (data : List ℤ) (width height : ℕ) (isH : Bool) :
    List.Pairwise (· < ·) (detectAxis data width height isH) ∧
    ∀ x ∈ detectAxis data width height isH,
      ((if isH then height else width : ℕ) : ℚ) * (2 / 100) < (x : ℚ) ∧
      (x : ℚ) < ((if isH then height else width : ℕ) : ℚ)
        - ((if isH then height else width : ℕ) : ℚ) * (2 / 100) ∧
      0 < x ∧ x < (if isH then height else width) := by
  rw [detectAxis]
  set limit := if isH then height else width with hlimit
  obtain ⟨h1, h2⟩ := combineSplits_spec (findGaps (varianceProfile data width isH limit
    (if isH then width else height)))
    (detectEdges (smoothScores (gradientProfile data width isH limit
      (if isH then width else height)) limit 2) limit) limit
    (findGaps_pairwise _)
  refine ⟨h1, ?_⟩
  intro x hx
  obtain ⟨hxl, hxu⟩ := h2 x hx
  have hm0 : (0 : ℚ) ≤ (limit : ℚ) * (2 / 100) := by positivity
  have hx0 : (0 : ℚ) < (x : ℚ) := lt_of_le_of_lt hm0 hxl
  have hxlim : (x : ℚ) < (limit : ℚ) := by
    calc (x : ℚ) < (limit : ℚ) - (limit : ℚ) * (2 / 100) := hxu
      _ ≤ (limit : ℚ) := by linarith
  refine ⟨hxl, hxu, ?_, ?_⟩
  · exact_mod_cast hx0
  · exact_mod_cast hxlim

/-! ## C2: behavior on a perfectly uniform single-color image -/

/-- All pixels of `data` (a `width*height` RGBA buffer) equal `(r, g, b, a)`. -/
def UniformImage (data : List ℤ) (width height : ℕ) (r g b a : ℤ) : Prop :=
  ∀ p, p < width * height →
    data.getD (4 * p) 0 = r ∧ data.getD (4 * p + 1) 0 = g ∧
    data.getD (4 * p + 2) 0 = b ∧ data.getD (4 * p + 3) 0 = a

theorem mem_samplePositions (cl st j : ℕ) (h : j ∈ samplePositions cl st) :
    ∃ t, t < (cl + st - 1) / st ∧ j = st * t := by
  rw [samplePositions, List.mem_range'] at h
  obtain ⟨t, ht, rfl⟩ := h
  exact ⟨t, ht, by ring⟩

theorem mem_samplePositions_lt_4 (cl j : ℕ) (h : j ∈ samplePositions cl 4) : j < cl := by
  obtain ⟨t, ht, rfl⟩ := mem_samplePositions cl 4 j h
  omega

theorem mem_samplePositions_lt_2 (cl j : ℕ) (h : j ∈ samplePositions cl 2) : j < cl := by
  obtain ⟨t, ht, rfl⟩ := mem_samplePositions cl 2 j h
  omega

/-- The flat pixel index addressed by `pixelBase` is in range and is a
multiple of 4. -/
theorem pixelBase_spec (width height : ℕ) (isH : Bool) (i j : ℕ)
    (hi : i < (if isH then height else width)) (hj : j < (if isH then width else height)) :
    ∃ p, pixelBase width isH i j = 4 * p ∧ p < width * height := by
  cases isH with
  | true =>
      rw [if_pos rfl] at hi hj
      refine ⟨i * width + j, by rw [pixelBase]; simp; ring, ?_⟩
      calc i * width + j < i * width + width := Nat.add_lt_add_left hj _
        _ = (i + 1) * width := by ring
        _ ≤ height * width := Nat.mul_le_mul_right _ hi
        _ = width * height := Nat.mul_comm _ _
  | false =>
      rw [if_neg (Bool.false_ne_true)] at hi hj
      refine ⟨j * width + i, by rw [pixelBase]; simp; ring, ?_⟩
      calc j * width + i < j * width + width := Nat.add_lt_add_left hi _
        _ = (j + 1) * width := by ring
        _ ≤ height * width := Nat.mul_le_mul_right _ hj
        _ = width * height := Nat.mul_comm _ _

theorem byteAt_uniform (data : List ℤ) (width height : ℕ) (r g b a : ℤ)
    (hu : UniformImage data width height r g b a) (p : ℕ) (hp : p < width * height) :
    byteAt data (4 * p) = (r : ℚ) ∧ byteAt data (4 * p + 1) = (g : ℚ) ∧
    byteAt data (4 * p + 2) = (b : ℚ) := by
  obtain ⟨h0, h1, h2, _⟩ := hu p hp
  exact ⟨by rw [byteAt, h0], by rw [byteAt, h1], by rw [byteAt, h2]⟩

theorem foldl_stats_const (f : ℕ → ℚ) (val : ℚ) :
    ∀ (js : List ℕ), (∀ j ∈ js, f j = val) →
    ∀ (s q : ℚ) (c : ℕ),
      js.foldl (fun acc j => (acc.1 + f j, acc.2.1 + f j * f j, acc.2.2 + 1)) (s, q, c) =
        (s + js.length * val, q + js.length * (val * val), c + js.length) := by
  intro js
  induction js with
  | nil => intro _ s q c; simp
  | cons j rest ih =>
      intro hval s q c
      rw [List.foldl_cons, hval j (List.mem_cons_self _ _),
        ih (fun x hx => hval x (List.mem_cons_of_mem _ hx))]
      simp only [List.length_cons]
      push_cast
      refine Prod.ext ?_ (Prod.ext ?_ ?_) <;> simp <;> ring

theorem foldl_add_const_zero (f : ℕ → ℚ) :
    ∀ (js : List ℕ), (∀ j ∈ js, f j = 0) →
    ∀ (init : ℚ), js.foldl (fun acc j => acc + f j) init = init := by
  intro js
  induction js with
  | nil => intro _ init; simp
  | cons j rest ih =>
      intro hval init
      rw [List.foldl_cons, hval j (List.mem_cons_self _ _), add_zero,
        ih (fun x hx => hval x (List.mem_cons_of_mem _ hx))]

theorem lineVariance_uniform (data : List ℤ) (width height : ℕ) (r g b a : ℤ)
    (hu : UniformImage data width height r g b a) (isH : Bool) (i : ℕ)
    (hi : i < (if isH then height else width))
    (hcl : 0 < (if isH then width else height)) :
    lineVariance data width isH (if isH then width else height) i = 0 := by
  set cl := if isH then width else height with hcl_def
  set val : ℚ := ((r : ℚ) + (g : ℚ) + (b : ℚ)) / 3 with hval_def
  have hread : ∀ j ∈ samplePositions cl 4,
      (byteAt data (pixelBase width isH i j) + byteAt data (pixelBase width isH i j + 1)
        + byteAt data (pixelBase width isH i j + 2)) / 3 = val := by
    intro j hj
    have hjlt : j < cl := mem_samplePositions_lt_4 cl j hj
    obtain ⟨p, hpe, hplt⟩ := pixelBase_spec width height isH i j hi (by rwa [← hcl_def])
    obtain ⟨h0, h1, h2⟩ := byteAt_uniform data width height r g b a hu p hplt
    rw [hpe, h0, h1, h2]
  have hstats : lineStats data width isH cl i =
      (0 + ((samplePositions cl 4).length : ℚ) * val,
       0 + ((samplePositions cl 4).length : ℚ) * (val * val),
       0 + (samplePositions cl 4).length) := by
    rw [lineStats]
    exact foldl_stats_const _ val (samplePositions cl 4) hread 0 0 0
  have hn : 0 < (samplePositions cl 4).length := by
    rw [samplePositions, List.length_range']
    omega
  rw [lineVariance, hstats]
  have hnq : ((samplePositions cl 4).length : ℚ) ≠ 0 := by positivity
  field_simp

theorem varianceProfile_uniform (data : List ℤ) (width height : ℕ) (r g b a : ℤ)
    (hu : UniformImage data width height r g b a) (isH : Bool)
    (hcl : 0 < (if isH then width else height)) :
    varianceProfile data width isH (if isH then height else width)
        (if isH then width else height) =
      List.replicate (if isH then height else width) 0 := by
  rw [varianceProfile]
  rw [List.map_congr_left (fun i hi =>
    lineVariance_uniform data width height r g b a hu isH i (List.mem_range.mp hi) hcl)]
  simp [List.map_const']

theorem lineGradient_uniform (data : List ℤ) (width height : ℕ) (r g b a : ℤ)
    (hu : UniformImage data width height r g b a) (isH : Bool) (i : ℕ)
    (hi : i < (if isH then height else width)) :
    lineGradient data width isH (if isH then width else height) i = 0 := by
  set cl := if isH then width else height with hcl_def
  rw [lineGradient]
  have hzero : ∀ j ∈ samplePositions cl 2,
      (|byteAt data (pixelBase width isH i j) - byteAt data (pixelBase width isH (i - 1) j)|
        + |byteAt data (pixelBase width isH i j + 1)
            - byteAt data (pixelBase width isH (i - 1) j + 1)|
        + |byteAt data (pixelBase width isH i j + 2)
            - byteAt data (pixelBase width isH (i - 1) j + 2)|) = 0 := by
    intro j hj
    have hjlt : j < cl := mem_samplePositions_lt_2 cl j hj
    obtain ⟨p1, hp1e, hp1lt⟩ := pixelBase_spec width height isH i j hi (by rwa [← hcl_def])
    obtain ⟨p2, hp2e, hp2lt⟩ := pixelBase_spec width height isH (i - 1) j
      (lt_of_le_of_lt (Nat.sub_le _ _) hi) (by rwa [← hcl_def])
    obtain ⟨ha0, ha1, ha2⟩ := byteAt_uniform data width height r g b a hu p1 hp1lt
    obtain ⟨hb0, hb1, hb2⟩ := byteAt_uniform data width height r g b a hu p2 hp2lt
    rw [hp1e, hp2e, ha0, ha1, ha2, hb0, hb1, hb2]
    simp
  rw [foldl_add_const_zero _ (samplePositions cl 2) hzero 0, zero_div]

theorem gradientProfile_uniform (data : List ℤ) (width height : ℕ) (r g b a : ℤ)
    (hu : UniformImage data width height r g b a) (isH : Bool) :
    gradientProfile data width isH (if isH then height else width)
        (if isH then width else height) =
      List.replicate (if isH then height else width) 0 := by
  rw [gradientProfile]
  rw [@List.map_congr_left _ _ _ _ (fun _ => (0 : ℚ)) (fun i hi => by
    by_cases h0 : i = 0
    · simp [h0]
    · rw [if_neg h0]
      exact lineGradient_uniform data width height r g b a hu isH i (List.mem_range.mp hi))]
  simp [List.map_const']

theorem getD_replicate_zero (n k : ℕ) : (List.replicate n (0 : ℚ)).getD k 0 = 0 := by
  rcases Nat.lt_or_ge k n with h | h
  · simp [List.getD_eq_getElem?_getD, List.getElem?_replicate, h]
  · rw [List.getD_eq_default]
    simpa using h

theorem smoothScores_replicate_zero (limit window : ℕ) :
    smoothScores (List.replicate limit (0 : ℚ)) limit window =
      List.replicate limit 0 := by
  rw [smoothScores]
  rw [@List.map_congr_left _ _ _ _ (fun _ => (0 : ℚ)) (fun i _ => by
    by_cases h : window ≤ i ∧ i < limit - window
    · rw [if_pos h]
      rw [show ((List.range (2 * window + 1)).foldl
          (fun s k => s + (List.replicate limit (0 : ℚ)).getD (i - window + k) 0) 0) = 0 from
        foldl_add_const_zero _ _ (fun j _ => getD_replicate_zero _ _) 0]
      simp
    · rw [if_neg h])]
  simp [List.map_const']

theorem detectEdges_replicate_zero (limit : ℕ) :
    detectEdges (List.replicate limit (0 : ℚ)) limit = [] := by
  rw [detectEdges]
  have : (List.replicate limit (0 : ℚ)).filter (fun s => decide (0 < s)) = [] := by
    rw [List.filter_replicate]
    simp
  rw [this]
  simp

/-- The gap scan over an all-below-threshold profile while inside a gap. -/
theorem gapScanGo_replicate_low :
    ∀ (n i gapStart : ℕ) (acc : List ℕ),
    gapScanGo (List.replicate n (0 : ℚ)) i true gapStart acc =
      if 2 ≤ (i + n - 1) - gapStart then acc ++ [(gapStart + (i + n - 1)) / 2] else acc := by
  intro n
  induction n with
  | zero =>
      intro i gapStart acc
      simp [gapScanGo]
  | succ m ih =>
      intro i gapStart acc
      rw [List.replicate_succ, gapScanGo, if_pos (by norm_num), if_pos rfl, ih]
      have : i + 1 + m - 1 = i + (m + 1) - 1 := by omega
      rw [this]

theorem findGaps_replicate_zero (limit : ℕ) :
    findGaps (List.replicate limit (0 : ℚ)) =
      if 3 ≤ limit then [(limit - 1) / 2] else [] := by
  rcases Nat.eq_zero_or_pos limit with h0 | hpos
  · subst h0
    simp [findGaps, gapScanGo]
  · obtain ⟨m, rfl⟩ := Nat.exists_eq_succ_of_ne_zero (Nat.pos_iff_ne_zero.mp hpos)
    rw [findGaps, List.replicate_succ, gapScanGo, if_pos (by norm_num),
      if_neg (Bool.false_ne_true), gapScanGo_replicate_low]
    have h1 : 1 + m - 1 = m := by omega
    rw [h1]
    by_cases h3 : 3 ≤ m + 1
    · rw [if_pos (by omega), if_pos h3]
      simp only [List.nil_append]
      have : m = m + 1 - 1 := by omega
      rw [← this, Nat.zero_add]
    · rw [if_neg (by omega), if_neg h3]

theorem combineSplits_nil (limit : ℕ) : combineSplits [] [] limit = [] := by
  simp [combineSplits]

theorem combineSplits_gap_singleton (limit : ℕ) (h3 : 3 ≤ limit) :
    combineSplits [(limit - 1) / 2] [] limit = [(limit - 1) / 2] := by
  have hA : 2 * limit < 100 * ((limit - 1) / 2) := by omega
  have hB : 100 * ((limit - 1) / 2) < 98 * limit := by omega
  have hAq : (2 : ℚ) * limit < 100 * (((limit - 1) / 2 : ℕ) : ℚ) := by exact_mod_cast hA
  have hBq : (100 : ℚ) * (((limit - 1) / 2 : ℕ) : ℚ) < 98 * limit := by exact_mod_cast hB
  rw [combineSplits]
  have hcond : ((limit : ℚ) * (2 / 100) < (((limit - 1) / 2 : ℕ) : ℚ) ∧
      (((limit - 1) / 2 : ℕ) : ℚ) < (limit : ℚ) - (limit : ℚ) * (2 / 100)) := by
    constructor <;> linarith
  have hdec : decide ((limit : ℚ) * (2 / 100) < (((limit - 1) / 2 : ℕ) : ℚ) ∧
      (((limit - 1) / 2 : ℕ) : ℚ) < (limit : ℚ) - (limit : ℚ) * (2 / 100)) = true := by
    rw [decide_eq_true_eq]
    exact hcond
  simp only [List.filter_singleton, hdec, cond_true, List.foldl_nil]
  exact List.mergeSort_singleton _

/-- On a perfectly uniform single-color image with positive dimensions, the
whole axis is one low-variance gap and the edge channel is empty, so
`detectAxis` returns the single gap midpoint `⌊(limit-1)/2⌋` whenever the axis
length is at least 3, and `[]` otherwise. -/
theorem detectAxis_uniform_core (data : List ℤ) (width height : ℕ) (r g b a : ℤ)
    (hw : 0 < width) (hh : 0 < height)
    (hu : UniformImage data width height r g b a) (isH : Bool) :
    detectAxis data width height isH =
      if 3 ≤ (if isH then height else width) then
        [((if isH then height else width) - 1) / 2]
      else [] := by
  have hcl : 0 < (if isH then width else height) := by cases isH <;> simpa
  simp only [detectAxis]
  rw [varianceProfile_uniform data width height r g b a hu isH hcl,
    findGaps_replicate_zero,
    gradientProfile_uniform data width height r g b a hu isH,
    smoothScores_replicate_zero, detectEdges_replicate_zero]
  by_cases h3 : 3 ≤ (if isH then height else width)
  · rw [if_pos h3]
    exact combineSplits_gap_singleton _ h3
  · rw [if_neg h3]
    exact combineSplits_nil _

/-- C2 (amended): on a perfectly uniform single-color image with positive
dimensions, `detectAxis` returns the single midpoint split `⌊(limit-1)/2⌋`
(found by the gap channel, which sees the whole axis as one low-variance gap)
whenever the axis length is at least 3, and the empty list only when the axis
length is at most 2 — not the empty list for every uniform image as claimed. -/
theorem detectAxis_uniform_midpoint (data : List ℤ) (width height : ℕ) (r g b a : ℤ)
    (hw : 0 < width) (hh : 0 < height)
    (hu : UniformImage data width height r g b a) (isH : Bool) :
    detectAxis data width height isH =
      if 3 ≤ (if isH then height else width) then
        [((if isH then height else width) - 1) / 2]
      else [] :=
  detectAxis_uniform_core data width height r g b a hw hh hu isH

/-- A 3×3 buffer of uniform white opaque pixels. -/
def white3x3 : List ℤ := (List.replicate 9 [255, 255, 255, 255]).flatten

/-- C2 counterexample: on the perfectly uniform white 3×3 image, `detectAxis`
returns `[1]` on the horizontal axis, not the empty list claimed by the spec. -/
theorem detectAxis_uniform_3x3_not_nil : detectAxis white3x3 3 3 true ≠ [] := by
  rw [detectAxis_uniform_core white3x3 3 3 255 255 255 255 (by decide) (by decide)
    (by unfold UniformImage; decide) true]
  decide

/-- Witness for `detectAxis_uniform_midpoint` on the white 3×3 image. -/
theorem detectAxis_uniform_midpoint_witness :
    (0 < 3 ∧ 0 < 3 ∧ UniformImage white3x3 3 3 255 255 255 255) ∧
      detectAxis white3x3 3 3 true =
        (if 3 ≤ (if true = true then 3 else 3) then
          [((if (true : Bool) = true then 3 else 3) - 1) / 2]
        else []) :=
  ⟨⟨by decide, by decide, by unfold UniformImage; decide⟩,
    detectAxis_uniform_midpoint white3x3 3 3 255 255 255 255 (by decide) (by decide)
      (by unfold UniformImage; decide) true⟩

/-! ## C9: alpha-channel noninterference of `detectAxis` -/

theorem foldl_congr_mem {α β : Type} (l : List α) (f g : β → α → β) (init : β)
    (h : ∀ b a, a ∈ l → f b a = g b a) : l.foldl f init = l.foldl g init := by
  induction l generalizing init with
  | nil => rfl
  | cons x xs ih =>
      rw [List.foldl_cons, List.foldl_cons, h init x (List.mem_cons_self _ _)]
      exact ih _ (fun b a ha => h b a (List.mem_cons_of_mem _ ha))

theorem pixelBase_mod_four (width : ℕ) (isH : Bool) (i j : ℕ) :
    pixelBase width isH i j % 4 = 0 := by
  cases isH <;> simp [pixelBase, Nat.mul_mod_left]

/-- Bytes at non-alpha offsets agree between two buffers that agree on all
R, G, B bytes and have equal length. -/
theorem byteAt_agree (d1 d2 : List ℤ) (hlen : d1.length = d2.length)
    (hag : ∀ k, k < d1.length → k % 4 ≠ 3 → d1.getD k 0 = d2.getD k 0) :
    ∀ k, k % 4 ≠ 3 → byteAt d1 k = byteAt d2 k := by
  intro k hk
  rcases Nat.lt_or_ge k d1.length with h | h
  · rw [byteAt, byteAt, hag k h hk]
  · rw [byteAt, byteAt, List.getD_eq_default, List.getD_eq_default]
    · omega
    · exact h

theorem lineStats_agree (d1 d2 : List ℤ)
    (hbyte : ∀ k, k % 4 ≠ 3 → byteAt d1 k = byteAt d2 k)
    (width : ℕ) (isH : Bool) (cl i : ℕ) :
    lineStats d1 width isH cl i = lineStats d2 width isH cl i := by
  rw [lineStats, lineStats]
  refine foldl_congr_mem _ _ _ _ ?_
  intro acc j _
  have h0 := pixelBase_mod_four width isH i j
  dsimp only
  rw [hbyte (pixelBase width isH i j) (by omega),
    hbyte (pixelBase width isH i j + 1) (by omega),
    hbyte (pixelBase width isH i j + 2) (by omega)]

theorem lineGradient_agree (d1 d2 : List ℤ)
    (hbyte : ∀ k, k % 4 ≠ 3 → byteAt d1 k = byteAt d2 k)
    (width : ℕ) (isH : Bool) (cl i : ℕ) :
    lineGradient d1 width isH cl i = lineGradient d2 width isH cl i := by
  rw [lineGradient, lineGradient]
  congr 1
  refine foldl_congr_mem _ _ _ _ ?_
  intro acc j _
  have h1 := pixelBase_mod_four width isH i j
  have h2 := pixelBase_mod_four width isH (i - 1) j
  dsimp only
  rw [hbyte (pixelBase width isH i j) (by omega),
    hbyte (pixelBase width isH i j + 1) (by omega),
    hbyte (pixelBase width isH i j + 2) (by omega),
    hbyte (pixelBase width isH (i - 1) j) (by omega),
    hbyte (pixelBase width isH (i - 1) j + 1) (by omega),
    hbyte (pixelBase width isH (i - 1) j + 2) (by omega)]

/-- C9: seam detection never reads the alpha channel — two pixel buffers of
equal length that agree on every R, G and B byte (all indices `k` with
`k % 4 ≠ 3`) and differ only in alpha bytes produce identical split lists on
either axis. -/
theorem detectAxis_alpha_noninterference (d1 d2 : List ℤ) (width height : ℕ)
    (isH : Bool) (hlen : d1.length = d2.length)
    (hag : ∀ k, k < d1.length → k % 4 ≠ 3 → d1.getD k 0 = d2.getD k 0) :
    detectAxis d1 width height isH = detectAxis d2 width height isH := by
  have hbyte := byteAt_agree d1 d2 hlen hag
  have hvar : varianceProfile d1 width isH (if isH then height else width)
      (if isH then width else height) =
      varianceProfile d2 width isH (if isH then height else width)
      (if isH then width else height) := by
    rw [varianceProfile, varianceProfile]
    refine List.map_congr_left (fun i _ => ?_)
    rw [lineVariance, lineVariance, lineStats_agree d1 d2 hbyte]
  have hgrad : gradientProfile d1 width isH (if isH then height else width)
      (if isH then width else height) =
      gradientProfile d2 width isH (if isH then height else width)
      (if isH then width else height) := by
    rw [gradientProfile, gradientProfile]
    refine List.map_congr_left (fun i _ => ?_)
    by_cases h0 : i = 0
    · simp [h0]
    · rw [if_neg h0, if_neg h0, lineGradient_agree d1 d2 hbyte]
  simp only [detectAxis]
  rw [hvar, hgrad]

/-- Witness for `detectAxis_alpha_noninterference`: two 1×1 buffers differing
only in the alpha byte. -/
theorem detectAxis_alpha_noninterference_witness :
    (([10, 20, 30, 255] : List ℤ).length = ([10, 20, 30, 0] : List ℤ).length ∧
      ∀ k, k < ([10, 20, 30, 255] : List ℤ).length → k % 4 ≠ 3 →
        ([10, 20, 30, 255] : List ℤ).getD k 0 = ([10, 20, 30, 0] : List ℤ).getD k 0) ∧
    detectAxis [10, 20, 30, 255] 1 1 true = detectAxis [10, 20, 30, 0] 1 1 true :=
  ⟨⟨by decide, by decide⟩,
    detectAxis_alpha_noninterference [10, 20, 30, 255] [10, 20, 30, 0] 1 1 true
      (by decide) (by decide)⟩

/-! ## Flood fill (src/services/imageProcessing.ts lines 12-75)

The canvas plumbing (`getImageData`/`putImageData`) is outside the core; the
embedding takes the RGBA byte list, the canvas dimensions and the seed, and
returns the updated byte list. -/

/-- `getPixelIndex = (x, y) => (y * width + x) * 4` (line 26). -/
def getPixelIndex (width x y : ℕ) : ℕ := (y * width + x) * 4

/-- `colorMatch` (lines 37-50): reads the current buffer; an already
transparent pixel never matches, otherwise each of R, G, B must be within
`tolerance` (inclusive) of the seed color. -/
def colorMatch (data : List ℤ) (sR sG sB tol : ℤ) (idx : ℕ) : Bool :=
  let r := data.getD idx 0
  let g := data.getD (idx + 1) 0
  let b := data.getD (idx + 2) 0
  let a := data.getD (idx + 3) 0
  if a = 0 then false
  else decide (|r - sR| ≤ tol ∧ |g - sG| ≤ tol ∧ |b - sB| ≤ tol)

/-- The four guarded neighbor pushes (lines 66-70).  The JS array stack pushes
left, right, up, down at the end and pops from the end; the embedding uses the
list head as the top of the stack, so the pushes are prepended in the same
order (down ends up on top). -/
def pushNeighbors (width height x y : ℕ) (rest : List (ℕ × ℕ)) : List (ℕ × ℕ) :=
  let s1 := if 0 < x then (x - 1, y) :: rest else rest
  let s2 := if x < width - 1 then (x + 1, y) :: s1 else s1
  let s3 := if 0 < y then (x, y - 1) :: s2 else s2
  if y < height - 1 then (x, y + 1) :: s3 else s3

/-- The `while (stack.length > 0)` loop (lines 53-72), fueled; one unit of
fuel per iteration.  `floodFill` passes `4*width*height + 2` fuel, which is
strictly more than `stack.length + 4*unvisited` ever needs. -/
def floodLoop (width height : ℕ) (sR sG sB tol : ℤ) :
    ℕ → List ℤ → List (ℕ × ℕ) → Finset (ℕ × ℕ) → List ℤ × Finset (ℕ × ℕ)
  | 0, data, _, visited => (data, visited)
  | _ + 1, data, [], visited => (data, visited)
  | fuel + 1, data, (x, y) :: rest, visited =>
      if (x, y) ∈ visited then
        floodLoop width height sR sG sB tol fuel data rest visited
      else
        let visited' := insert (x, y) visited
        let idx := getPixelIndex width x y
        if colorMatch data sR sG sB tol idx then
          floodLoop width height sR sG sB tol fuel (data.set (idx + 3) 0)
            (pushNeighbors width height x y rest) visited'
        else
          floodLoop width height sR sG sB tol fuel data rest visited'

/-- `floodFill` (lines 12-75): no-op if the seed pixel is already transparent,
otherwise the iterative stack traversal from the seed. -/
def floodFill (data : List ℤ) (width height startX startY : ℕ) (tol : ℤ) : List ℤ :=
  let startIdx := getPixelIndex width startX startY
  let sR := data.getD startIdx 0
  let sG := data.getD (startIdx + 1) 0
  let sB := data.getD (startIdx + 2) 0
  let sA := data.getD (startIdx + 3) 0
  if sA = 0 then data
  else
    (floodLoop width height sR sG sB tol (4 * (width * height) + 2) data
      [(startX, startY)] ∅).1

/-- In-bounds coordinate pair. -/
def inGrid (width height : ℕ) (p : ℕ × ℕ) : Prop := p.1 < width ∧ p.2 < height

/-- 4-connectivity of coordinate pairs. -/
def adjacent (p q : ℕ × ℕ) : Prop :=
  (p.2 = q.2 ∧ (p.1 + 1 = q.1 ∨ q.1 + 1 = p.1)) ∨
  (p.1 = q.1 ∧ (p.2 + 1 = q.2 ∨ q.2 + 1 = p.2))

/-- Pixel `p` matches the seed color on buffer `data`: non-zero alpha and
R, G, B within tolerance. -/
def MatchesSeed (data : List ℤ) (width : ℕ) (sR sG sB tol : ℤ) (p : ℕ × ℕ) : Prop :=
  colorMatch data sR sG sB tol (getPixelIndex width p.1 p.2) = true

/-- One step of a 4-connected path through matching in-bounds pixels. -/
def FillStep (data : List ℤ) (width height : ℕ) (sR sG sB tol : ℤ) (p q : ℕ × ℕ) : Prop :=
  MatchesSeed data width sR sG sB tol p ∧ MatchesSeed data width sR sG sB tol q ∧
  inGrid width height q ∧ adjacent p q

/-- `p` is reachable from the seed by a 4-connected path all of whose pixels
(in the buffer as it was before the call) have non-zero alpha and R, G, B
within tolerance of the seed pixel's original color. -/
def Reachable (data : List ℤ) (width height startX startY : ℕ) (tol : ℤ)
    (p : ℕ × ℕ) : Prop :=
  let startIdx := getPixelIndex width startX startY
  let sR := data.getD startIdx 0
  let sG := data.getD (startIdx + 1) 0
  let sB := data.getD (startIdx + 2) 0
  MatchesSeed data width sR sG sB tol p ∧
    Relation.ReflTransGen (FillStep data width height sR sG sB tol) (startX, startY) p

/-- Reachability from an explicit seed with explicit seed colors (the
color-instantiated form of `Reachable`). -/
def ReachableFrom (data0 : List ℤ) (width height : ℕ) (sR sG sB tol : ℤ)
    (seed p : ℕ × ℕ) : Prop :=
  MatchesSeed data0 width sR sG sB tol p ∧
    Relation.ReflTransGen (FillStep data0 width height sR sG sB tol) seed p

/-- The pixels already processed and matched (their alpha bytes are 0). -/
def VisMatched (data0 : List ℤ) (width : ℕ) (sR sG sB tol : ℤ)
    (visited : Finset (ℕ × ℕ)) : Set (ℕ × ℕ) :=
  {p | p ∈ visited ∧ MatchesSeed data0 width sR sG sB tol p}

/-- `k` is the alpha byte of some pixel of `S`. -/
def ErasedAt (width : ℕ) (S : Set (ℕ × ℕ)) (k : ℕ) : Prop :=
  ∃ p ∈ S, k = getPixelIndex width p.1 p.2 + 3

/-- `d` is `data0` with the alpha bytes of exactly the pixels of `S` zeroed. -/
def GoodData (data0 : List ℤ) (width : ℕ) (S : Set (ℕ × ℕ)) (d : List ℤ) : Prop :=
  d.length = data0.length ∧
  ∀ k, (ErasedAt width S k → d.getD k 0 = 0) ∧
    (¬ ErasedAt width S k → d.getD k 0 = data0.getD k 0)

theorem getPixelIndex_inj (width height : ℕ) (p q : ℕ × ℕ)
    (hp : inGrid width height p) (hq : inGrid width height q)
    (h : getPixelIndex width p.1 p.2 = getPixelIndex width q.1 q.2) : p = q := by
  obtain ⟨hp1, hp2⟩ := hp
  obtain ⟨hq1, hq2⟩ := hq
  rw [getPixelIndex, getPixelIndex] at h
  have hw : 0 < width := lt_of_le_of_lt (Nat.zero_le _) hp1
  have h4 : p.2 * width + p.1 = q.2 * width + q.1 :=
    Nat.eq_of_mul_eq_mul_right (by norm_num) h
  have hx : p.1 = q.1 := by
    have e1 : (p.2 * width + p.1) % width = p.1 := by
      rw [mul_comm, Nat.mul_add_mod, Nat.mod_eq_of_lt hp1]
    have e2 : (q.2 * width + q.1) % width = q.1 := by
      rw [mul_comm, Nat.mul_add_mod, Nat.mod_eq_of_lt hq1]
    rw [← e1, ← e2, h4]
  have hy : p.2 = q.2 := by
    have e1 : (p.2 * width + p.1) / width = p.2 := by
      rw [mul_comm, Nat.mul_add_div hw, Nat.div_eq_of_lt hp1, Nat.add_zero]
    have e2 : (q.2 * width + q.1) / width = q.2 := by
      rw [mul_comm, Nat.mul_add_div hw, Nat.div_eq_of_lt hq1, Nat.add_zero]
    rw [← e1, ← e2, h4]
  exact Prod.ext hx hy

theorem getPixelIndex_mod (width x y : ℕ) : getPixelIndex width x y % 4 = 0 :=
  Nat.mul_mod_left _ 4

theorem erasedAt_mod (width : ℕ) (S : Set (ℕ × ℕ)) (k : ℕ) (h : ErasedAt width S k) :
    k % 4 = 3 := by
  obtain ⟨p, _, rfl⟩ := h
  have := getPixelIndex_mod width p.1 p.2
  omega

theorem colorMatch_congr (d1 d2 : List ℤ) (sR sG sB tol : ℤ) (idx : ℕ)
    (h0 : d1.getD idx 0 = d2.getD idx 0) (h1 : d1.getD (idx + 1) 0 = d2.getD (idx + 1) 0)
    (h2 : d1.getD (idx + 2) 0 = d2.getD (idx + 2) 0)
    (h3 : d1.getD (idx + 3) 0 = d2.getD (idx + 3) 0) :
    colorMatch d1 sR sG sB tol idx = colorMatch d2 sR sG sB tol idx := by
  simp only [colorMatch]
  rw [h0, h1, h2, h3]

/-- Reading an unprocessed in-bounds pixel through a partially erased buffer
gives the same match result as the original buffer (only alpha bytes of other
pixels differ). -/
theorem goodData_colorMatch (data0 : List ℤ) (width height : ℕ) (sR sG sB tol : ℤ)
    (S : Set (ℕ × ℕ)) (d : List ℤ) (hgd : GoodData data0 width S d)
    (hSg : ∀ p ∈ S, inGrid width height p) (q : ℕ × ℕ) (hq : inGrid width height q)
    (hqS : q ∉ S) :
    colorMatch d sR sG sB tol (getPixelIndex width q.1 q.2) =
      colorMatch data0 sR sG sB tol (getPixelIndex width q.1 q.2) := by
  have hmod := getPixelIndex_mod width q.1 q.2
  apply colorMatch_congr
  · exact (hgd.2 _).2 (fun h => by have := erasedAt_mod _ _ _ h; omega)
  · exact (hgd.2 _).2 (fun h => by have := erasedAt_mod _ _ _ h; omega)
  · exact (hgd.2 _).2 (fun h => by have := erasedAt_mod _ _ _ h; omega)
  · refine (hgd.2 _).2 ?_
    rintro ⟨p, hpS, heq⟩
    have hip : getPixelIndex width p.1 p.2 = getPixelIndex width q.1 q.2 := by omega
    exact hqS (getPixelIndex_inj width height p q (hSg p hpS) hq hip ▸ hpS)

/-- Zeroing the alpha byte of `p` extends the erased set by `p`. -/
theorem goodData_insert (data0 : List ℤ) (width height : ℕ) (S : Set (ℕ × ℕ))
    (d : List ℤ) (hgd : GoodData data0 width S d) (p : ℕ × ℕ)
    (hSg : ∀ q ∈ S, inGrid width height q) (hp : inGrid width height p) :
    GoodData data0 width (S ∪ {p}) (d.set (getPixelIndex width p.1 p.2 + 3) 0) := by
  refine ⟨by rw [List.length_set]; exact hgd.1, ?_⟩
  intro k
  by_cases hk : k = getPixelIndex width p.1 p.2 + 3
  · subst hk
    constructor
    · intro _
      rcases Nat.lt_or_ge (getPixelIndex width p.1 p.2 + 3) d.length with h | h
      · simp [List.getD_eq_getElem?_getD, List.getElem?_set_self h]
      · rw [List.getD_eq_default]
        rwa [List.length_set]
    · intro hne
      exact absurd ⟨p, Or.inr rfl, rfl⟩ hne
  · have hset : (d.set (getPixelIndex width p.1 p.2 + 3) 0).getD k 0 = d.getD k 0 := by
      simp [List.getD_eq_getElem?_getD, List.getElem?_set_ne (fun h => hk h.symm)]
    constructor
    · rintro ⟨q, hq, hkeq⟩
      rcases hq with hq | hq
      · rw [hset]
        exact (hgd.2 k).1 ⟨q, hq, hkeq⟩
      · rw [Set.mem_singleton_iff] at hq
        subst hq
        exact absurd hkeq hk
    · intro hnE
      rw [hset]
      exact (hgd.2 k).2 (fun h => hnE (by
        obtain ⟨q, hq, hkeq⟩ := h
        exact ⟨q, Or.inl hq, hkeq⟩))

theorem visMatched_insert_matched (data0 : List ℤ) (width : ℕ) (sR sG sB tol : ℤ)
    (visited : Finset (ℕ × ℕ)) (p : ℕ × ℕ)
    (hm : MatchesSeed data0 width sR sG sB tol p) :
    VisMatched data0 width sR sG sB tol (insert p visited) =
      VisMatched data0 width sR sG sB tol visited ∪ {p} := by
  ext q
  simp only [VisMatched, Set.mem_setOf_eq, Finset.mem_insert, Set.mem_union,
    Set.mem_singleton_iff]
  constructor
  · rintro ⟨hq | hq, hqm⟩
    · exact Or.inr hq
    · exact Or.inl ⟨hq, hqm⟩
  · rintro (⟨hq, hqm⟩ | rfl)
    · exact ⟨Or.inr hq, hqm⟩
    · exact ⟨Or.inl rfl, hm⟩

theorem visMatched_insert_unmatched (data0 : List ℤ) (width : ℕ) (sR sG sB tol : ℤ)
    (visited : Finset (ℕ × ℕ)) (p : ℕ × ℕ)
    (hm : ¬ MatchesSeed data0 width sR sG sB tol p) :
    VisMatched data0 width sR sG sB tol (insert p visited) =
      VisMatched data0 width sR sG sB tol visited := by
  ext q
  simp only [VisMatched, Set.mem_setOf_eq, Finset.mem_insert]
  constructor
  · rintro ⟨hq | hq, hqm⟩
    · subst hq
      exact absurd hqm hm
    · exact ⟨hq, hqm⟩
  · rintro ⟨hq, hqm⟩
    exact ⟨Or.inr hq, hqm⟩

theorem mem_pushNeighbors (width height x y : ℕ) (rest : List (ℕ × ℕ)) (n : ℕ × ℕ) :
    n ∈ pushNeighbors width height x y rest ↔
      n ∈ rest ∨ (n = (x - 1, y) ∧ 0 < x) ∨ (n = (x + 1, y) ∧ x < width - 1) ∨
      (n = (x, y - 1) ∧ 0 < y) ∨ (n = (x, y + 1) ∧ y < height - 1) := by
  rw [pushNeighbors]
  split_ifs <;> simp [List.mem_cons] <;> tauto

theorem pushNeighbors_sublist (width height x y : ℕ) (rest : List (ℕ × ℕ)) :
    ∀ n ∈ rest, n ∈ pushNeighbors width height x y rest := by
  intro n hn
  rw [mem_pushNeighbors]
  exact Or.inl hn

theorem pushNeighbors_length (width height x y : ℕ) (rest : List (ℕ × ℕ)) :
    (pushNeighbors width height x y rest).length ≤ rest.length + 4 := by
  rw [pushNeighbors]
  split_ifs <;> simp <;> omega

theorem pushNeighbors_sound (width height x y : ℕ) (rest : List (ℕ × ℕ))
    (hx : x < width) (hy : y < height) (n : ℕ × ℕ)
    (hn : n ∈ pushNeighbors width height x y rest) :
    n ∈ rest ∨ (inGrid width height n ∧ adjacent (x, y) n) := by
  rw [mem_pushNeighbors] at hn
  rcases hn with h | ⟨rfl, h⟩ | ⟨rfl, h⟩ | ⟨rfl, h⟩ | ⟨rfl, h⟩
  · exact Or.inl h
  · exact Or.inr ⟨⟨by omega, hy⟩, Or.inl ⟨rfl, Or.inr (by omega)⟩⟩
  · exact Or.inr ⟨⟨by omega, hy⟩, Or.inl ⟨rfl, Or.inl (by omega)⟩⟩
  · exact Or.inr ⟨⟨hx, by omega⟩, Or.inr ⟨rfl, Or.inr (by omega)⟩⟩
  · exact Or.inr ⟨⟨hx, by omega⟩, Or.inr ⟨rfl, Or.inl (by omega)⟩⟩

theorem pushNeighbors_complete (width height x y : ℕ) (rest : List (ℕ × ℕ))
    (n : ℕ × ℕ) (hg : inGrid width height n) (hadj : adjacent (x, y) n) :
    n ∈ pushNeighbors width height x y rest := by
  rw [mem_pushNeighbors]
  right
  obtain ⟨n1, n2⟩ := n
  obtain ⟨hg1, hg2⟩ := hg
  simp only [adjacent] at hadj
  simp only [Prod.mk.injEq]
  rcases hadj with ⟨he, h1 | h1⟩ | ⟨he, h1 | h1⟩
  · exact Or.inr (Or.inl ⟨⟨by omega, by omega⟩, by omega⟩)
  · exact Or.inl ⟨⟨by omega, by omega⟩, by omega⟩
  · exact Or.inr (Or.inr (Or.inr ⟨⟨by omega, by omega⟩, by omega⟩))
  · exact Or.inr (Or.inr (Or.inl ⟨⟨by omega, by omega⟩, by omega⟩))

/-- The in-bounds coordinates as a finset (for the fuel bound). -/
def gridFinset (width height : ℕ) : Finset (ℕ × ℕ) :=
  Finset.range width ×ˢ Finset.range height

theorem mem_gridFinset (width height : ℕ) (p : ℕ × ℕ) :
    p ∈ gridFinset width height ↔ inGrid width height p := by
  simp [gridFinset, inGrid, Finset.mem_product]

theorem card_gridFinset (width height : ℕ) :
    (gridFinset width height).card = width * height := by
  simp [gridFinset]

/-- Main invariant lemma for the flood-fill loop: starting from a state whose
stack and visited set are in bounds, whose buffer is `data0` with exactly the
visited matching pixels erased, whose visited matching pixels are reachable,
whose stack entries are the seed or neighbors of erased pixels, and in which
every in-bounds neighbor of an erased pixel is visited or on the stack, the
loop terminates (given fuel beyond the measure) in a state with the same
properties and an empty stack, having visited every pixel that was on the
stack. -/
theorem floodLoop_spec (width height : ℕ) (sR sG sB tol : ℤ) (data0 : List ℤ)
    (seed : ℕ × ℕ) :
    ∀ (fuel : ℕ) (d : List ℤ) (stack : List (ℕ × ℕ)) (visited : Finset (ℕ × ℕ)),
    (∀ p ∈ stack, inGrid width height p) →
    (∀ p ∈ visited, inGrid width height p) →
    GoodData data0 width (VisMatched data0 width sR sG sB tol visited) d →
    (∀ p ∈ visited, MatchesSeed data0 width sR sG sB tol p →
      ReachableFrom data0 width height sR sG sB tol seed p) →
    (∀ p ∈ stack, p = seed ∨ ∃ q ∈ visited, MatchesSeed data0 width sR sG sB tol q ∧
      ReachableFrom data0 width height sR sG sB tol seed q ∧ adjacent q p) →
    (∀ q ∈ visited, MatchesSeed data0 width sR sG sB tol q →
      ∀ n, inGrid width height n → adjacent q n → n ∈ visited ∨ n ∈ stack) →
    stack.length + 4 * ((gridFinset width height \ visited).card) < fuel →
    GoodData data0 width (VisMatched data0 width sR sG sB tol
      (floodLoop width height sR sG sB tol fuel d stack visited).2)
      (floodLoop width height sR sG sB tol fuel d stack visited).1 ∧
    (∀ p ∈ (floodLoop width height sR sG sB tol fuel d stack visited).2,
      MatchesSeed data0 width sR sG sB tol p →
      ReachableFrom data0 width height sR sG sB tol seed p) ∧
    (∀ q ∈ (floodLoop width height sR sG sB tol fuel d stack visited).2,
      MatchesSeed data0 width sR sG sB tol q →
      ∀ n, inGrid width height n → adjacent q n →
        n ∈ (floodLoop width height sR sG sB tol fuel d stack visited).2) ∧
    visited ⊆ (floodLoop width height sR sG sB tol fuel d stack visited).2 ∧
    (∀ p ∈ stack, p ∈ (floodLoop width height sR sG sB tol fuel d stack visited).2) ∧
    (∀ p ∈ (floodLoop width height sR sG sB tol fuel d stack visited).2,
      inGrid width height p) := by
  intro fuel
  induction fuel with
  | zero =>
      intro d stack visited _ _ _ _ _ _ hfuel
      exact absurd hfuel (Nat.not_lt_zero _)
  | succ f ih =>
      intro d stack visited hgs hgv hgd hsound horigin hclosure hfuel
      match stack, hgs, horigin, hclosure, hfuel with
      | [], hgs, horigin, hclosure, hfuel =>
          rw [floodLoop]
          refine ⟨hgd, hsound, ?_, Finset.Subset.refl _, by simp, hgv⟩
          intro q hq hqm n hng hadj
          rcases hclosure q hq hqm n hng hadj with h | h
          · exact h
          · exact absurd h (List.not_mem_nil _)
      | (x, y) :: rest, hgs, horigin, hclosure, hfuel =>
          rw [floodLoop]
          by_cases hv : (x, y) ∈ visited
          · rw [if_pos hv]
            have hres := ih d rest visited
              (fun p hp => hgs p (List.mem_cons_of_mem _ hp)) hgv hgd hsound
              (fun p hp => horigin p (List.mem_cons_of_mem _ hp))
              (fun q hq hqm n hng hadj => by
                rcases hclosure q hq hqm n hng hadj with h | h
                · exact Or.inl h
                · rcases List.mem_cons.mp h with rfl | h
                  · exact Or.inl hv
                  · exact Or.inr h)
              (by simp only [List.length_cons] at hfuel; omega)
            refine ⟨hres.1, hres.2.1, hres.2.2.1, hres.2.2.2.1, ?_, hres.2.2.2.2.2⟩
            intro p hp
            rcases List.mem_cons.mp hp with rfl | hp
            · exact hres.2.2.2.1 hv
            · exact hres.2.2.2.2.1 p hp
          · rw [if_neg hv]
            have hpg : inGrid width height (x, y) := hgs _ (List.mem_cons_self _ _)
            have hSgrid : ∀ p ∈ VisMatched data0 width sR sG sB tol visited,
                inGrid width height p := fun p hp => hgv p hp.1
            have hpnotS : (x, y) ∉ VisMatched data0 width sR sG sB tol visited :=
              fun h => hv h.1
            have hcm_eq := goodData_colorMatch data0 width height sR sG sB tol
              (VisMatched data0 width sR sG sB tol visited) d hgd hSgrid (x, y) hpg hpnotS
            have hcard : ((gridFinset width height \ insert (x, y) visited).card + 1 ≤
                (gridFinset width height \ visited).card) := by
              have hssub : gridFinset width height \ insert (x, y) visited ⊂
                  gridFinset width height \ visited := by
                refine Finset.ssubset_iff_of_subset
                  (Finset.sdiff_subset_sdiff (Finset.Subset.refl _)
                    (Finset.subset_insert _ _)) |>.mpr ?_
                refine ⟨(x, y), ?_, ?_⟩
                · rw [Finset.mem_sdiff, mem_gridFinset]
                  exact ⟨hpg, hv⟩
                · rw [Finset.mem_sdiff]
                  rintro ⟨_, habs⟩
                  exact habs (Finset.mem_insert_self _ _)
              exact Finset.card_lt_card hssub
            by_cases hcm : colorMatch d sR sG sB tol (getPixelIndex width x y) = true
            · rw [if_pos hcm]
              have hm : MatchesSeed data0 width sR sG sB tol (x, y) := by
                rw [MatchesSeed, ← hcm_eq]
                exact hcm
              have hreach : ReachableFrom data0 width height sR sG sB tol seed (x, y) := by
                rcases horigin _ (List.mem_cons_self _ _) with rfl | ⟨q, _, hqm, hqr, hqadj⟩
                · exact ⟨hm, Relation.ReflTransGen.refl⟩
                · exact ⟨hm, Relation.ReflTransGen.tail hqr.2 ⟨hqm, hm, hpg, hqadj⟩⟩
              have hgd' : GoodData data0 width
                  (VisMatched data0 width sR sG sB tol (insert (x, y) visited))
                  (d.set (getPixelIndex width x y + 3) 0) := by
                rw [visMatched_insert_matched data0 width sR sG sB tol visited (x, y) hm]
                exact goodData_insert data0 width height _ d hgd (x, y) hSgrid hpg
              have hres := ih (d.set (getPixelIndex width x y + 3) 0)
                (pushNeighbors width height x y rest) (insert (x, y) visited)
                (fun p hp => by
                  rcases pushNeighbors_sound width height x y rest hpg.1 hpg.2 p hp with h | h
                  · exact hgs p (List.mem_cons_of_mem _ h)
                  · exact h.1)
                (fun p hp => by
                  rcases Finset.mem_insert.mp hp with rfl | hp
                  · exact hpg
                  · exact hgv p hp)
                hgd'
                (fun p hp hpm => by
                  rcases Finset.mem_insert.mp hp with rfl | hp
                  · exact hreach
                  · exact hsound p hp hpm)
                (fun p hp => by
                  rcases pushNeighbors_sound width height x y rest hpg.1 hpg.2 p hp with h | h
                  · rcases horigin p (List.mem_cons_of_mem _ h) with h' | ⟨q, hq, hrest⟩
                    · exact Or.inl h'
                    · exact Or.inr ⟨q, Finset.mem_insert_of_mem hq, hrest⟩
                  · exact Or.inr ⟨(x, y), Finset.mem_insert_self _ _, hm, hreach, h.2⟩)
                (fun q hq hqm n hng hadj => by
                  rcases Finset.mem_insert.mp hq with rfl | hq
                  · exact Or.inr (pushNeighbors_complete width height x y rest n hng hadj)
                  · rcases hclosure q hq hqm n hng hadj with h | h
                    · exact Or.inl (Finset.mem_insert_of_mem h)
                    · rcases List.mem_cons.mp h with rfl | h
                      · exact Or.inl (Finset.mem_insert_self _ _)
                      · exact Or.inr (pushNeighbors_sublist width height x y rest n h))
                (by
                  have hpl := pushNeighbors_length width height x y rest
                  have hfl : rest.length + 1 + 4 * ((gridFinset width height \ visited).card)
                      < f + 1 := by simpa using hfuel
                  omega)
              refine ⟨hres.1, hres.2.1, hres.2.2.1, ?_, ?_, hres.2.2.2.2.2⟩
              · exact Finset.Subset.trans (Finset.subset_insert _ _) hres.2.2.2.1
              · intro p hp
                rcases List.mem_cons.mp hp with rfl | hp
                · exact hres.2.2.2.1 (Finset.mem_insert_self _ _)
                · exact hres.2.2.2.2.1 p (pushNeighbors_sublist width height x y rest p hp)
            · rw [if_neg hcm]
              have hm : ¬ MatchesSeed data0 width sR sG sB tol (x, y) := by
                rw [MatchesSeed, ← hcm_eq]
                exact hcm
              have hgd' : GoodData data0 width
                  (VisMatched data0 width sR sG sB tol (insert (x, y) visited)) d := by
                rw [visMatched_insert_unmatched data0 width sR sG sB tol visited (x, y) hm]
                exact hgd
              have hres := ih d rest (insert (x, y) visited)
                (fun p hp => hgs p (List.mem_cons_of_mem _ hp))
                (fun p hp => by
                  rcases Finset.mem_insert.mp hp with rfl | hp
                  · exact hpg
                  · exact hgv p hp)
                hgd'
                (fun p hp hpm => by
                  rcases Finset.mem_insert.mp hp with rfl | hp
                  · exact absurd hpm hm
                  · exact hsound p hp hpm)
                (fun p hp => by
                  rcases horigin p (List.mem_cons_of_mem _ hp) with h' | ⟨q, hq, hrest⟩
                  · exact Or.inl h'
                  · exact Or.inr ⟨q, Finset.mem_insert_of_mem hq, hrest⟩)
                (fun q hq hqm n hng hadj => by
                  rcases Finset.mem_insert.mp hq with rfl | hq
                  · exact absurd hqm hm
                  · rcases hclosure q hq hqm n hng hadj with h | h
                    · exact Or.inl (Finset.mem_insert_of_mem h)
                    · rcases List.mem_cons.mp h with rfl | h
                      · exact Or.inl (Finset.mem_insert_self _ _)
                      · exact Or.inr h)
                (by
                  have hfl : rest.length + 1 + 4 * ((gridFinset width height \ visited).card)
                      < f + 1 := by simpa using hfuel
                  omega)
              refine ⟨hres.1, hres.2.1, hres.2.2.1, ?_, ?_, hres.2.2.2.2.2⟩
              · exact Finset.Subset.trans (Finset.subset_insert _ _) hres.2.2.2.1
              · intro p hp
                rcases List.mem_cons.mp hp with rfl | hp
                · exact hres.2.2.2.1 (Finset.mem_insert_self _ _)
                · exact hres.2.2.2.2.1 p hp

theorem matchesSeed_alpha_ne (data : List ℤ) (width : ℕ) (sR sG sB tol : ℤ) (p : ℕ × ℕ)
    (h : MatchesSeed data width sR sG sB tol p) :
    data.getD (getPixelIndex width p.1 p.2 + 3) 0 ≠ 0 := by
  intro h0
  rw [MatchesSeed] at h
  simp only [colorMatch] at h
  rw [if_pos h0] at h
  simp at h

theorem matchesSeed_tol_nonneg (data : List ℤ) (width : ℕ) (sR sG sB tol : ℤ) (p : ℕ × ℕ)
    (h : MatchesSeed data width sR sG sB tol p) : 0 ≤ tol := by
  rw [MatchesSeed] at h
  simp only [colorMatch] at h
  by_cases hA : data.getD (getPixelIndex width p.1 p.2 + 3) 0 = 0
  · rw [if_pos hA] at h
    simp at h
  · rw [if_neg hA] at h
    have := of_decide_eq_true h
    exact le_trans (abs_nonneg _) this.1

theorem matchesSeed_self (data : List ℤ) (width sx sy : ℕ) (tol : ℤ)
    (hA : data.getD (getPixelIndex width sx sy + 3) 0 ≠ 0) (htol : 0 ≤ tol) :
    MatchesSeed data width (data.getD (getPixelIndex width sx sy) 0)
      (data.getD (getPixelIndex width sx sy + 1) 0)
      (data.getD (getPixelIndex width sx sy + 2) 0) tol (sx, sy) := by
  rw [MatchesSeed]
  simp only [colorMatch]
  rw [if_neg hA]
  simp [htol]

theorem reachable_implies_seed_matches (data : List ℤ) (width height sx sy : ℕ)
    (tol : ℤ) (p : ℕ × ℕ) (hre : Reachable data width height sx sy tol p) :
    MatchesSeed data width (data.getD (getPixelIndex width sx sy) 0)
      (data.getD (getPixelIndex width sx sy + 1) 0)
      (data.getD (getPixelIndex width sx sy + 2) 0) tol (sx, sy) := by
  rcases Relation.ReflTransGen.cases_head hre.2 with heq | ⟨c, hstep, _⟩
  · rw [heq]
    exact hre.1
  · exact hstep.1

/-- Full characterization of `floodFill`: the result has the original length,
the alpha byte of every reachable pixel is 0, every byte that is not the alpha
byte of a reachable pixel is unchanged, and a transparent seed makes the call
a no-op. -/
theorem floodFill_char (data : List ℤ) (width height startX startY : ℕ) (tol : ℤ)
    (hx : startX < width) (hy : startY < height) :
    (floodFill data width height startX startY tol).length = data.length ∧
    (∀ p, Reachable data width height startX startY tol p →
      (floodFill data width height startX startY tol).getD
        (getPixelIndex width p.1 p.2 + 3) 0 = 0) ∧
    (∀ k, ¬ (∃ p, Reachable data width height startX startY tol p ∧
        k = getPixelIndex width p.1 p.2 + 3) →
      (floodFill data width height startX startY tol).getD k 0 = data.getD k 0) ∧
    (data.getD (getPixelIndex width startX startY + 3) 0 = 0 →
      floodFill data width height startX startY tol = data) := by
  by_cases hA : data.getD (getPixelIndex width startX startY + 3) 0 = 0
  · have hff : floodFill data width height startX startY tol = data := by
      simp only [floodFill]
      rw [if_pos hA]
    have hnone : ∀ p, ¬ Reachable data width height startX startY tol p := by
      intro p hre
      exact matchesSeed_alpha_ne data width _ _ _ tol (startX, startY)
        (reachable_implies_seed_matches data width height startX startY tol p hre) hA
    rw [hff]
    exact ⟨rfl, fun p hre => absurd hre (hnone p), fun k _ => rfl, fun _ => rfl⟩
  · have hff : floodFill data width height startX startY tol =
        (floodLoop width height (data.getD (getPixelIndex width startX startY) 0)
          (data.getD (getPixelIndex width startX startY + 1) 0)
          (data.getD (getPixelIndex width startX startY + 2) 0) tol
          (4 * (width * height) + 2) data [(startX, startY)] ∅).1 := by
      simp only [floodFill]
      rw [if_neg hA]
    set sR := data.getD (getPixelIndex width startX startY) 0 with hsR
    set sG := data.getD (getPixelIndex width startX startY + 1) 0 with hsG
    set sB := data.getD (getPixelIndex width startX startY + 2) 0 with hsB
    have hspec := floodLoop_spec width height sR sG sB tol data (startX, startY)
      (4 * (width * height) + 2) data [(startX, startY)] ∅
      (by
        intro p hp
        rw [List.mem_singleton] at hp
        subst hp
        exact ⟨hx, hy⟩)
      (by simp)
      (by
        refine ⟨rfl, fun k => ⟨?_, fun _ => rfl⟩⟩
        rintro ⟨p, hp, _⟩
        simp [VisMatched] at hp)
      (by simp [VisMatched])
      (by
        intro p hp
        rw [List.mem_singleton] at hp
        exact Or.inl hp)
      (by simp [VisMatched])
      (by
        rw [Finset.sdiff_empty, card_gridFinset]
        simp
        omega)
    obtain ⟨hgd, hsound, hclosure, _, hstackV, _⟩ := hspec
    set res := floodLoop width height sR sG sB tol (4 * (width * height) + 2) data
      [(startX, startY)] ∅ with hres
    have hseedV : (startX, startY) ∈ res.2 := hstackV _ (List.mem_singleton_self _)
    have hrtgV : ∀ p, Relation.ReflTransGen
        (FillStep data width height sR sG sB tol) (startX, startY) p → p ∈ res.2 := by
      intro p hrtg
      induction hrtg with
      | refl => exact hseedV
      | tail hab hbc ih => exact hclosure _ ih hbc.1 _ hbc.2.2.1 hbc.2.2.2
    have hiff : ∀ p, (p ∈ VisMatched data width sR sG sB tol res.2) ↔
        ReachableFrom data width height sR sG sB tol (startX, startY) p := by
      intro p
      constructor
      · rintro ⟨hpV, hpm⟩
        exact hsound p hpV hpm
      · rintro ⟨hm, hrtg⟩
        exact ⟨hrtgV p hrtg, hm⟩
    have hreach_eq : ∀ p, Reachable data width height startX startY tol p ↔
        ReachableFrom data width height sR sG sB tol (startX, startY) p := by
      intro p
      exact Iff.rfl
    rw [hff]
    refine ⟨hgd.1, ?_, ?_, fun h => absurd h hA⟩
    · intro p hre
      exact (hgd.2 _).1 ⟨p, (hiff p).mpr ((hreach_eq p).mp hre), rfl⟩
    · intro k hk
      refine (hgd.2 k).2 ?_
      rintro ⟨q, hqVM, hkeq⟩
      exact hk ⟨q, (hreach_eq q).mpr ((hiff q).mp hqVM), hkeq⟩

theorem list_eq_of_getD {α : Type} [Inhabited α] (d1 d2 : List α)
    (hlen : d1.length = d2.length)
    (h : ∀ k, d1.getD k default = d2.getD k default) : d1 = d2 := by
  apply List.ext_getElem hlen
  intro i h1 h2
  have hi := h i
  rw [List.getD_eq_getElem?_getD, List.getD_eq_getElem?_getD,
    List.getElem?_eq_getElem h1, List.getElem?_eq_getElem h2,
    Option.getD_some, Option.getD_some] at hi
  exact hi

theorem list_eq_of_getD_int (d1 d2 : List ℤ) (hlen : d1.length = d2.length)
    (h : ∀ k, d1.getD k 0 = d2.getD k 0) : d1 = d2 :=
  list_eq_of_getD d1 d2 hlen h

theorem list_eq_of_getD_rat (d1 d2 : List ℚ) (hlen : d1.length = d2.length)
    (h : ∀ k, d1.getD k 0 = d2.getD k 0) : d1 = d2 :=
  list_eq_of_getD d1 d2 hlen h

/-- C1: for every RGBA buffer of size `width*height*4`, in-range seed and any
tolerance, `floodFill` preserves the buffer length, zeroes the alpha byte of
exactly the pixels reachable from the seed by a 4-connected path of pixels
that (in the original buffer) have non-zero alpha and R, G, B within tolerance
of the seed's original color, leaves every other byte unchanged, and is a
complete no-op when the seed's alpha is already 0.  The result is determined
by (buffer, seed, tolerance) alone — the right-hand sides below mention only
the original buffer and the reachable set, not any traversal order. -/
theorem floodFill_erases_exactly_reachable (data : List ℤ)
    (width height startX startY : ℕ) (tol : ℤ)
    (hx : startX < width) (hy : startY < height)
    (hlen : data.length = width * height * 4) :
    (floodFill data width height startX startY tol).length = data.length ∧
    (∀ p, Reachable data width height startX startY tol p →
      (floodFill data width height startX startY tol).getD
        (getPixelIndex width p.1 p.2 + 3) 0 = 0) ∧
    (∀ k, ¬ (∃ p, Reachable data width height startX startY tol p ∧
        k = getPixelIndex width p.1 p.2 + 3) →
      (floodFill data width height startX startY tol).getD k 0 = data.getD k 0) ∧
    (data.getD (getPixelIndex width startX startY + 3) 0 = 0 →
      floodFill data width height startX startY tol = data) :=
  floodFill_char data width height startX startY tol hx hy

/-- Witness for `floodFill_erases_exactly_reachable` on a 2×2 buffer. -/
theorem floodFill_erases_exactly_reachable_witness :
    (0 < 2 ∧ 0 < 2 ∧
      ([255, 0, 0, 255, 255, 0, 0, 255, 0, 0, 255, 255, 255, 0, 0, 255] : List ℤ).length
        = 2 * 2 * 4) ∧
    ((floodFill [255, 0, 0, 255, 255, 0, 0, 255, 0, 0, 255, 255, 255, 0, 0, 255]
        2 2 0 0 0).length =
      ([255, 0, 0, 255, 255, 0, 0, 255, 0, 0, 255, 255, 255, 0, 0, 255] : List ℤ).length ∧
    (∀ p, Reachable [255, 0, 0, 255, 255, 0, 0, 255, 0, 0, 255, 255, 255, 0, 0, 255]
        2 2 0 0 0 p →
      (floodFill [255, 0, 0, 255, 255, 0, 0, 255, 0, 0, 255, 255, 255, 0, 0, 255]
        2 2 0 0 0).getD (getPixelIndex 2 p.1 p.2 + 3) 0 = 0) ∧
    (∀ k, ¬ (∃ p, Reachable [255, 0, 0, 255, 255, 0, 0, 255, 0, 0, 255, 255, 255, 0, 0, 255]
        2 2 0 0 0 p ∧ k = getPixelIndex 2 p.1 p.2 + 3) →
      (floodFill [255, 0, 0, 255, 255, 0, 0, 255, 0, 0, 255, 255, 255, 0, 0, 255]
        2 2 0 0 0).getD k 0 =
      ([255, 0, 0, 255, 255, 0, 0, 255, 0, 0, 255, 255, 255, 0, 0, 255] : List ℤ).getD k 0) ∧
    (([255, 0, 0, 255, 255, 0, 0, 255, 0, 0, 255, 255, 255, 0, 0, 255] : List ℤ).getD
        (getPixelIndex 2 0 0 + 3) 0 = 0 →
      floodFill [255, 0, 0, 255, 255, 0, 0, 255, 0, 0, 255, 255, 255, 0, 0, 255]
        2 2 0 0 0 =
      [255, 0, 0, 255, 255, 0, 0, 255, 0, 0, 255, 255, 255, 0, 0, 255])) :=
  ⟨⟨by decide, by decide, by decide⟩,
    floodFill_erases_exactly_reachable
      [255, 0, 0, 255, 255, 0, 0, 255, 0, 0, 255, 255, 255, 0, 0, 255]
      2 2 0 0 0 (by decide) (by decide) (by decide)⟩

/-- C7: `floodFill` is idempotent — a second call with the same seed and
tolerance on the result of the first call leaves the buffer unchanged. -/
theorem floodFill_idempotent (data : List ℤ) (width height startX startY : ℕ)
    (tol : ℤ) (hx : startX < width) (hy : startY < height) :
    floodFill (floodFill data width height startX startY tol)
        width height startX startY tol =
      floodFill data width height startX startY tol := by
  obtain ⟨hlen1, herase, hkeep, hguard⟩ :=
    floodFill_char data width height startX startY tol hx hy
  by_cases hA : data.getD (getPixelIndex width startX startY + 3) 0 = 0
  · rw [hguard hA]
    exact hguard hA
  · by_cases htol : 0 ≤ tol
    · have hm := matchesSeed_self data width startX startY tol hA htol
      have hre : Reachable data width height startX startY tol (startX, startY) :=
        ⟨hm, Relation.ReflTransGen.refl⟩
      have h0 : (floodFill data width height startX startY tol).getD
          (getPixelIndex width startX startY + 3) 0 = 0 := herase _ hre
      obtain ⟨_, _, _, hguard2⟩ :=
        floodFill_char (floodFill data width height startX startY tol)
          width height startX startY tol hx hy
      exact hguard2 h0
    · have hnone : ∀ p, ¬ Reachable data width height startX startY tol p := by
        rintro p ⟨hm, _⟩
        exact htol (matchesSeed_tol_nonneg data width _ _ _ tol p hm)
      have heq : floodFill data width height startX startY tol = data :=
        list_eq_of_getD _ _ hlen1
          (fun k => hkeep k (fun ⟨p, hp, _⟩ => hnone p hp))
      rw [heq]
      exact heq

/-- Witness for `floodFill_idempotent` on a 2×2 buffer. -/
theorem floodFill_idempotent_witness :
    (0 < 2 ∧ 0 < 2) ∧
    floodFill (floodFill [255, 0, 0, 255, 255, 0, 0, 255, 0, 0, 255, 255, 255, 0, 0, 255]
        2 2 0 0 0) 2 2 0 0 0 =
      floodFill [255, 0, 0, 255, 255, 0, 0, 255, 0, 0, 255, 255, 255, 0, 0, 255]
        2 2 0 0 0 :=
  ⟨⟨by decide, by decide⟩,
    floodFill_idempotent [255, 0, 0, 255, 255, 0, 0, 255, 0, 0, 255, 255, 255, 0, 0, 255]
      2 2 0 0 0 (by decide) (by decide)⟩

/-! ## Largest connected component filter
(src/services/imageProcessing.ts lines 148-230)

The mask is a flat `List ℚ` of float scores of length `width*height`; a value
`> 0` is foreground.  `visited` is the `Uint8Array` as a finset of flat
indices, `labels` is the `Int32Array` as a function (0 = background). -/

/-- Visiting one neighbor `(nx, ny)` of the BFS (lines 190-196): bounds check,
then `maskData[nIdx] > 0 && visited[nIdx] === 0` guards marking, labeling and
enqueueing.  State is `(visited, labels, queue)`. -/
def tryVisit (mask : List ℚ) (width height : ℕ) (lab : ℤ)
    (st : Finset ℕ × (ℕ → ℤ) × List ℕ) (n : ℤ × ℤ) : Finset ℕ × (ℕ → ℤ) × List ℕ :=
  if 0 ≤ n.1 ∧ n.1 < width ∧ 0 ≤ n.2 ∧ n.2 < height then
    let nIdx := (n.2 * width + n.1).toNat
    if 0 < mask.getD nIdx 0 ∧ nIdx ∉ st.1 then
      (insert nIdx st.1, fun i => if i = nIdx then lab else st.2.1 i, st.2.2 ++ [nIdx])
    else st
  else st

/-- The four neighbor coordinates of `currIdx` (lines 180-188), as integers
(the JS `cx - 1` may be `-1` and is rejected by the bounds check). -/
def neighborList (width : ℕ) (currIdx : ℕ) : List (ℤ × ℤ) :=
  let cx : ℤ := (currIdx : ℤ) % (width : ℤ)
  let cy : ℤ := (currIdx : ℤ) / (width : ℤ)
  [(cx - 1, cy), (cx + 1, cy), (cx, cy - 1), (cx, cy + 1)]

/-- The BFS dequeue loop (lines 173-197), fueled: pop the head, bump `count`,
visit the four neighbors (appending new ones at the end of the queue). -/
def bfsLoop (mask : List ℚ) (width height : ℕ) (lab : ℤ) :
    ℕ → List ℕ → Finset ℕ → (ℕ → ℤ) → ℕ → Finset ℕ × (ℕ → ℤ) × ℕ
  | 0, _, visited, labels, count => (visited, labels, count)
  | _ + 1, [], visited, labels, count => (visited, labels, count)
  | fuel + 1, currIdx :: queue, visited, labels, count =>
      let st := (neighborList width currIdx).foldl (tryVisit mask width height lab)
        (visited, labels, queue)
      bfsLoop mask width height lab fuel st.2.2 st.1 st.2.1 (count + 1)

/-- One step of the raster scan (lines 170-204): an unvisited foreground pixel
seeds a BFS (seed marked visited and labeled before the loop, `count` from 0),
the component size is recorded and the label counter incremented.  State is
`(visited, labels, currentLabel, componentSizes)`. -/
def scanStep (mask : List ℚ) (width height : ℕ)
    (st : Finset ℕ × (ℕ → ℤ) × ℤ × List (ℤ × ℕ)) (idx : ℕ) :
    Finset ℕ × (ℕ → ℤ) × ℤ × List (ℤ × ℕ) :=
  if 0 < mask.getD idx 0 ∧ idx ∉ st.1 then
    let bfs := bfsLoop mask width height st.2.2.1 (2 * (width * height) + 2) [idx]
      (insert idx st.1) (fun i => if i = idx then st.2.2.1 else st.2.1 i) 0
    (bfs.1, bfs.2.1, st.2.2.1 + 1, st.2.2.2 ++ [(st.2.2.1, bfs.2.2)])
  else st

/-- The raster scan (lines 167-204).  The double loop over `y` then `x`
computes `idx = y*width + x`, which enumerates exactly `0, 1, ...,
width*height - 1` in order. -/
def scanComponents (mask : List ℚ) (width height : ℕ) :
    Finset ℕ × (ℕ → ℤ) × ℤ × List (ℤ × ℕ) :=
  (List.range (width * height)).foldl (scanStep mask width height)
    (∅, fun _ => 0, 1, [])

/-- The `componentSizes.forEach` maximum selection (lines 207-214): insertion
order, strict `>`, so the first label attaining the maximum size wins;
`(maxLabel, maxSize)` start at `(-1, -1)`. -/
def selectMax (sizes : List (ℤ × ℕ)) : ℤ × ℤ :=
  sizes.foldl (fun acc e => if (e.2 : ℤ) > acc.2 then (e.1, (e.2 : ℤ)) else acc) (-1, -1)

/-- `filterLargestComponent` (lines 148-230): label 4-connected foreground
components in raster order, keep the original values of the first
maximum-size component, set everything else to the `-10.0` sentinel. -/
def filterLargestComponent (maskData : List ℚ) (width height : ℕ) : List ℚ :=
  let scan := scanComponents maskData width height
  let maxLabel := (selectMax scan.2.2.2).1
  (List.range (width * height)).map
    (fun i => if scan.2.1 i = maxLabel then maskData.getD i 0 else -10)

/-- Index `a` and `b` are 4-adjacent cells of the `width × height` grid. -/
def adjIdx (width height : ℕ) (a b : ℕ) : Prop :=
  ∃ xa ya xb yb, xa < width ∧ ya < height ∧ xb < width ∧ yb < height ∧
    a = ya * width + xa ∧ b = yb * width + xb ∧ adjacent (xa, ya) (xb, yb)

/-- One step between 4-adjacent foreground pixels. -/
def CompStep (mask : List ℚ) (width height : ℕ) (a b : ℕ) : Prop :=
  0 < mask.getD a 0 ∧ 0 < mask.getD b 0 ∧ adjIdx width height a b

/-- `q` lies in the 4-connected foreground component of `s`. -/
def InComp (mask : List ℚ) (width height : ℕ) (s q : ℕ) : Prop :=
  Relation.ReflTransGen (CompStep mask width height) s q

/-- The component of `s` as a set of flat indices. -/
def compSet (mask : List ℚ) (width height : ℕ) (s : ℕ) : Set ℕ :=
  {q | InComp mask width height s q}

theorem encode_mod (width x y : ℕ) (hx : x < width) : (y * width + x) % width = x := by
  rw [mul_comm, Nat.mul_add_mod, Nat.mod_eq_of_lt hx]

theorem encode_div (width x y : ℕ) (hx : x < width) : (y * width + x) / width = y := by
  have hw : 0 < width := lt_of_le_of_lt (Nat.zero_le _) hx
  rw [mul_comm, Nat.mul_add_div hw, Nat.div_eq_of_lt hx, Nat.add_zero]

theorem encode_lt (width height x y : ℕ) (hx : x < width) (hy : y < height) :
    y * width + x < width * height := by
  calc y * width + x < y * width + width := Nat.add_lt_add_left hx _
    _ = (y + 1) * width := by ring
    _ ≤ height * width := Nat.mul_le_mul_right _ hy
    _ = width * height := Nat.mul_comm _ _

theorem width_pos_of_idx (width height i : ℕ) (hi : i < width * height) :
    0 < width ∧ 0 < height := by
  constructor
  · rcases Nat.eq_zero_or_pos width with h | h
    · subst h
      simp at hi
    · exact h
  · rcases Nat.eq_zero_or_pos height with h | h
    · subst h
      simp at hi
    · exact h

theorem idx_decompose (width height i : ℕ) (hi : i < width * height) :
    i % width < width ∧ i / width < height ∧ (i / width) * width + i % width = i := by
  obtain ⟨hw, _⟩ := width_pos_of_idx width height i hi
  refine ⟨Nat.mod_lt _ hw, ?_, ?_⟩
  · rw [Nat.div_lt_iff_lt_mul hw]
    rwa [Nat.mul_comm] at hi
  · rw [mul_comm]
    exact Nat.div_add_mod i width

theorem toIdx_eq (width : ℕ) (nx ny : ℤ) (h1 : 0 ≤ nx) (h3 : 0 ≤ ny) :
    (ny * (width : ℤ) + nx).toNat = ny.toNat * width + nx.toNat := by
  have h : ny * (width : ℤ) + nx = ((ny.toNat * width + nx.toNat : ℕ) : ℤ) := by
    push_cast [Int.toNat_of_nonneg h1, Int.toNat_of_nonneg h3]
    ring
  rw [h, Int.toNat_natCast]

theorem adjacent_symm (p q : ℕ × ℕ) (h : adjacent p q) : adjacent q p := by
  rcases h with ⟨h1, h2⟩ | ⟨h1, h2⟩
  · exact Or.inl ⟨h1.symm, h2.symm⟩
  · exact Or.inr ⟨h1.symm, h2.symm⟩

theorem adjIdx_symm (width height a b : ℕ) (h : adjIdx width height a b) :
    adjIdx width height b a := by
  obtain ⟨xa, ya, xb, yb, h1, h2, h3, h4, h5, h6, h7⟩ := h
  exact ⟨xb, yb, xa, ya, h3, h4, h1, h2, h6, h5, adjacent_symm _ _ h7⟩

theorem adjIdx_lt (width height a b : ℕ) (h : adjIdx width height a b) :
    a < width * height ∧ b < width * height := by
  obtain ⟨xa, ya, xb, yb, h1, h2, h3, h4, h5, h6, _⟩ := h
  subst h5
  subst h6
  exact ⟨encode_lt width height xa ya h1 h2, encode_lt width height xb yb h3 h4⟩

theorem compStep_symm (mask : List ℚ) (width height : ℕ) (a b : ℕ)
    (h : CompStep mask width height a b) : CompStep mask width height b a :=
  ⟨h.2.1, h.1, adjIdx_symm width height a b h.2.2⟩

theorem inComp_symm (mask : List ℚ) (width height : ℕ) (a b : ℕ)
    (h : InComp mask width height a b) : InComp mask width height b a :=
  Relation.ReflTransGen.symmetric (fun _ _ hs => compStep_symm mask width height _ _ hs) h

theorem inComp_trans (mask : List ℚ) (width height : ℕ) (a b c : ℕ)
    (h1 : InComp mask width height a b) (h2 : InComp mask width height b c) :
    InComp mask width height a c :=
  Relation.ReflTransGen.trans h1 h2

/-- Two pixels of the same component have the same component. -/
theorem compSet_eq_of_mem (mask : List ℚ) (width height : ℕ) (s q : ℕ)
    (h : InComp mask width height s q) :
    compSet mask width height q = compSet mask width height s := by
  ext x
  exact ⟨fun hx => inComp_trans mask width height s q x h hx,
    fun hx => inComp_trans mask width height q s x (inComp_symm mask width height s q h) hx⟩

/-- Every pixel of the component of a foreground pixel is foreground. -/
theorem fg_of_inComp (mask : List ℚ) (width height : ℕ) (s q : ℕ)
    (hfg : 0 < mask.getD s 0) (h : InComp mask width height s q) : 0 < mask.getD q 0 := by
  induction h with
  | refl => exact hfg
  | tail _ hstep _ => exact hstep.2.1

/-- Every non-seed pixel of a component is in the grid; with the seed in the
grid the whole component is. -/
theorem inComp_lt (mask : List ℚ) (width height : ℕ) (s q : ℕ)
    (hs : s < width * height) (h : InComp mask width height s q) :
    q < width * height := by
  induction h with
  | refl => exact hs
  | tail _ hstep _ => exact (adjIdx_lt width height _ _ hstep.2.2).2

theorem compMin_mem (mask : List ℚ) (width height : ℕ) (s : ℕ) :
    sInf (compSet mask width height s) ∈ compSet mask width height s :=
  Nat.sInf_mem ⟨s, Relation.ReflTransGen.refl⟩

theorem compMin_le (mask : List ℚ) (width height : ℕ) (s q : ℕ)
    (h : q ∈ compSet mask width height s) : sInf (compSet mask width height s) ≤ q :=
  Nat.sInf_le h

/-- Members of the same component share the minimum. -/
theorem compMin_eq_of_mem (mask : List ℚ) (width height : ℕ) (s q : ℕ)
    (h : InComp mask width height s q) :
    sInf (compSet mask width height q) = sInf (compSet mask width height s) := by
  rw [compSet_eq_of_mem mask width height s q h]

theorem toIdx_lt (width height : ℕ) (nx ny : ℤ)
    (h : 0 ≤ nx ∧ nx < (width : ℤ) ∧ 0 ≤ ny ∧ ny < (height : ℤ)) :
    (ny * (width : ℤ) + nx).toNat < width * height := by
  obtain ⟨h1, h2, h3, h4⟩ := h
  rw [toIdx_eq width nx ny h1 h3]
  exact encode_lt width height _ _ (by omega) (by omega)

/-- Effect of visiting a list of neighbor coordinates: some fresh foreground
in-bounds pixels (`news`) are marked, labeled `lab` and appended to the queue,
every in-bounds foreground neighbor ends up visited, and nothing else
changes. -/
theorem tryVisit_fold_spec (mask : List ℚ) (width height : ℕ) (lab : ℤ) :
    ∀ (ns : List (ℤ × ℤ)) (V : Finset ℕ) (L : ℕ → ℤ) (Q : List ℕ),
    ∃ news : List ℕ,
      (ns.foldl (tryVisit mask width height lab) (V, L, Q)).1 = V ∪ news.toFinset ∧
      (ns.foldl (tryVisit mask width height lab) (V, L, Q)).2.2 = Q ++ news ∧
      news.Nodup ∧
      (∀ m ∈ news, m ∉ V ∧ 0 < mask.getD m 0 ∧ m < width * height ∧
        ∃ n ∈ ns, (0 ≤ n.1 ∧ n.1 < (width : ℤ) ∧ 0 ≤ n.2 ∧ n.2 < (height : ℤ)) ∧
          m = (n.2 * (width : ℤ) + n.1).toNat) ∧
      (∀ n ∈ ns, (0 ≤ n.1 ∧ n.1 < (width : ℤ) ∧ 0 ≤ n.2 ∧ n.2 < (height : ℤ)) →
        0 < mask.getD ((n.2 * (width : ℤ) + n.1).toNat) 0 →
        ((n.2 * (width : ℤ) + n.1).toNat) ∈
          (ns.foldl (tryVisit mask width height lab) (V, L, Q)).1) ∧
      (∀ i, (ns.foldl (tryVisit mask width height lab) (V, L, Q)).2.1 i =
        if i ∈ news then lab else L i) := by
  intro ns
  induction ns with
  | nil =>
      intro V L Q
      exact ⟨[], by simp, by simp, List.nodup_nil, by simp, by simp, by simp⟩
  | cons n ns ih =>
      intro V L Q
      rw [List.foldl_cons]
      by_cases hb : (0 ≤ n.1 ∧ n.1 < (width : ℤ) ∧ 0 ≤ n.2 ∧ n.2 < (height : ℤ))
      · by_cases hc : 0 < mask.getD ((n.2 * (width : ℤ) + n.1).toNat) 0 ∧
            ((n.2 * (width : ℤ) + n.1).toNat) ∉ V
        · have hstep : tryVisit mask width height lab (V, L, Q) n =
              (insert ((n.2 * (width : ℤ) + n.1).toNat) V,
               fun i => if i = ((n.2 * (width : ℤ) + n.1).toNat) then lab else L i,
               Q ++ [((n.2 * (width : ℤ) + n.1).toNat)]) := by
            simp only [tryVisit]
            rw [if_pos hb, if_pos hc]
          rw [hstep]
          obtain ⟨news₁, r1, r2, r3, r4, r5, r6⟩ := ih
            (insert ((n.2 * (width : ℤ) + n.1).toNat) V)
            (fun i => if i = ((n.2 * (width : ℤ) + n.1).toNat) then lab else L i)
            (Q ++ [((n.2 * (width : ℤ) + n.1).toNat)])
          refine ⟨((n.2 * (width : ℤ) + n.1).toNat) :: news₁, ?_, ?_, ?_, ?_, ?_, ?_⟩
          · rw [r1]
            ext x
            simp only [Finset.mem_union, Finset.mem_insert, List.toFinset_cons,
              List.mem_toFinset]
            tauto
          · rw [r2, List.append_assoc]
            rfl
          · rw [List.nodup_cons]
            exact ⟨fun hmem => ((r4 _ hmem).1 (Finset.mem_insert_self _ _)), r3⟩
          · intro m hm
            rcases List.mem_cons.mp hm with rfl | hm
            · exact ⟨hc.2, hc.1, toIdx_lt width height n.1 n.2 hb,
                n, List.mem_cons_self _ _, hb, rfl⟩
            · obtain ⟨hm1, hm2, hm3, x, hx, hxb, hxe⟩ := r4 m hm
              exact ⟨fun hmV => hm1 (Finset.mem_insert_of_mem hmV), hm2, hm3,
                x, List.mem_cons_of_mem _ hx, hxb, hxe⟩
          · intro x hx hxb hxfg
            rcases List.mem_cons.mp hx with rfl | hx
            · rw [r1]
              exact Finset.mem_union_left _ (Finset.mem_insert_self _ _)
            · exact r5 x hx hxb hxfg
          · intro i
            rw [r6 i]
            by_cases h1 : i ∈ news₁
            · rw [if_pos h1, if_pos (List.mem_cons_of_mem _ h1)]
            · rw [if_neg h1]
              by_cases h2 : i = ((n.2 * (width : ℤ) + n.1).toNat)
              · rw [if_pos h2, if_pos (by rw [h2]; exact List.mem_cons_self _ _)]
              · rw [if_neg h2, if_neg (by
                  intro hmem
                  rcases List.mem_cons.mp hmem with h | h
                  · exact h2 h
                  · exact h1 h)]
        · have hstep : tryVisit mask width height lab (V, L, Q) n = (V, L, Q) := by
            simp only [tryVisit]
            rw [if_pos hb, if_neg hc]
          rw [hstep]
          obtain ⟨news₁, r1, r2, r3, r4, r5, r6⟩ := ih V L Q
          refine ⟨news₁, r1, r2, r3, ?_, ?_, r6⟩
          · intro m hm
            obtain ⟨hm1, hm2, hm3, x, hx, hxb, hxe⟩ := r4 m hm
            exact ⟨hm1, hm2, hm3, x, List.mem_cons_of_mem _ hx, hxb, hxe⟩
          · intro x hx hxb hxfg
            rcases List.mem_cons.mp hx with rfl | hx
            · have hxV : ((x.2 * (width : ℤ) + x.1).toNat) ∈ V := by
                by_contra hnV
                exact hc ⟨hxfg, hnV⟩
              rw [r1]
              exact Finset.mem_union_left _ hxV
            · exact r5 x hx hxb hxfg
      · have hstep : tryVisit mask width height lab (V, L, Q) n = (V, L, Q) := by
          simp only [tryVisit]
          rw [if_neg hb]
        rw [hstep]
        obtain ⟨news₁, r1, r2, r3, r4, r5, r6⟩ := ih V L Q
        refine ⟨news₁, r1, r2, r3, ?_, ?_, r6⟩
        · intro m hm
          obtain ⟨hm1, hm2, hm3, x, hx, hxb, hxe⟩ := r4 m hm
          exact ⟨hm1, hm2, hm3, x, List.mem_cons_of_mem _ hx, hxb, hxe⟩
        · intro x hx hxb hxfg
          rcases List.mem_cons.mp hx with rfl | hx
          · exact absurd hxb hb
          · exact r5 x hx hxb hxfg

/-- An in-bounds entry of `neighborList` denotes a grid cell 4-adjacent to
`currIdx`. -/
theorem neighborList_adjIdx (width height curr : ℕ) (hc : curr < width * height)
    (n : ℤ × ℤ) (hn : n ∈ neighborList width curr)
    (hb : 0 ≤ n.1 ∧ n.1 < (width : ℤ) ∧ 0 ≤ n.2 ∧ n.2 < (height : ℤ)) :
    adjIdx width height curr ((n.2 * (width : ℤ) + n.1).toNat) := by
  obtain ⟨hmod, hdiv, henc⟩ := idx_decompose width height curr hc
  have hkey : (n.2 * (width : ℤ) + n.1).toNat = n.2.toNat * width + n.1.toNat :=
    toIdx_eq width n.1 n.2 hb.1 hb.2.2.1
  refine ⟨curr % width, curr / width, n.1.toNat, n.2.toNat,
    hmod, hdiv, by omega, by omega, henc.symm, hkey, ?_⟩
  simp only [neighborList, List.mem_cons, List.not_mem_nil, or_false] at hn
  simp only [adjacent]
  rcases hn with rfl | rfl | rfl | rfl <;> simp only
  · exact Or.inl ⟨by omega, Or.inr (by omega)⟩
  · exact Or.inl ⟨by omega, Or.inl (by omega)⟩
  · exact Or.inr ⟨by omega, Or.inr (by omega)⟩
  · exact Or.inr ⟨by omega, Or.inl (by omega)⟩

/-- Every grid cell 4-adjacent to `curr` is denoted by some in-bounds entry of
`neighborList`. -/
theorem neighborList_complete (width height curr b : ℕ)
    (hadj : adjIdx width height curr b) :
    ∃ n ∈ neighborList width curr,
      (0 ≤ n.1 ∧ n.1 < (width : ℤ) ∧ 0 ≤ n.2 ∧ 0 ≤ n.2 ∧ n.2 < (height : ℤ)) ∧
      b = (n.2 * (width : ℤ) + n.1).toNat := by
  obtain ⟨xa, ya, xb, yb, h1, h2, h3, h4, h5, h6, h7⟩ := hadj
  have hxa : curr % width = xa := by rw [h5]; exact encode_mod width xa ya h1
  have hya : curr / width = ya := by rw [h5]; exact encode_div width xa ya h1
  simp only [adjacent] at h7
  simp only [neighborList, List.mem_cons, List.not_mem_nil, or_false]
  rcases h7 with ⟨he, hx | hx⟩ | ⟨he, hx | hx⟩
  · -- xa + 1 = xb : right neighbor
    refine ⟨((curr : ℤ) % (width : ℤ) + 1, (curr : ℤ) / (width : ℤ)),
      Or.inr (Or.inl rfl), by constructor <;> omega, ?_⟩
    have hkey : ((curr : ℤ) / (width : ℤ)) * (width : ℤ) +
        ((curr : ℤ) % (width : ℤ) + 1) = (((ya * width + xb) : ℕ) : ℤ) := by
      push_cast
      have c1 : (curr : ℤ) % (width : ℤ) = (xa : ℤ) := by omega
      have c2 : (curr : ℤ) / (width : ℤ) = (ya : ℤ) := by omega
      rw [c1, c2]
      push_cast
      omega
    rw [hkey, Int.toNat_natCast, h6, he]
  · -- xb + 1 = xa : left neighbor
    refine ⟨((curr : ℤ) % (width : ℤ) - 1, (curr : ℤ) / (width : ℤ)),
      Or.inl rfl, by constructor <;> omega, ?_⟩
    have hkey : ((curr : ℤ) / (width : ℤ)) * (width : ℤ) +
        ((curr : ℤ) % (width : ℤ) - 1) = (((ya * width + xb) : ℕ) : ℤ) := by
      push_cast
      have c1 : (curr : ℤ) % (width : ℤ) = (xa : ℤ) := by omega
      have c2 : (curr : ℤ) / (width : ℤ) = (ya : ℤ) := by omega
      rw [c1, c2]
      push_cast
      omega
    rw [hkey, Int.toNat_natCast, h6, he]
  · -- ya + 1 = yb : down neighbor
    refine ⟨((curr : ℤ) % (width : ℤ), (curr : ℤ) / (width : ℤ) + 1),
      Or.inr (Or.inr (Or.inr rfl)), by constructor <;> omega, ?_⟩
    have hkey : ((curr : ℤ) / (width : ℤ) + 1) * (width : ℤ) +
        ((curr : ℤ) % (width : ℤ)) = (((yb * width + xb) : ℕ) : ℤ) := by
      have c1 : (curr : ℤ) % (width : ℤ) = (xa : ℤ) := by omega
      have c2 : (curr : ℤ) / (width : ℤ) = (ya : ℤ) := by omega
      rw [c1, c2]
      push_cast
      have hyy : (yb : ℤ) = (ya : ℤ) + 1 := by omega
      have hxx : (xb : ℤ) = (xa : ℤ) := by omega
      rw [hyy, hxx]
    rw [hkey, Int.toNat_natCast, h6]
  · -- yb + 1 = ya : up neighbor
    refine ⟨((curr : ℤ) % (width : ℤ), (curr : ℤ) / (width : ℤ) - 1),
      Or.inr (Or.inr (Or.inl rfl)), by constructor <;> omega, ?_⟩
    have hkey : ((curr : ℤ) / (width : ℤ) - 1) * (width : ℤ) +
        ((curr : ℤ) % (width : ℤ)) = (((yb * width + xb) : ℕ) : ℤ) := by
      have c1 : (curr : ℤ) % (width : ℤ) = (xa : ℤ) := by omega
      have c2 : (curr : ℤ) / (width : ℤ) = (ya : ℤ) := by omega
      rw [c1, c2]
      push_cast
      have hyy : (yb : ℤ) = (ya : ℤ) - 1 := by omega
      have hxx : (xb : ℤ) = (xa : ℤ) := by omega
      rw [hyy, hxx]
    rw [hkey, Int.toNat_natCast, h6]

/-- Main invariant lemma for the BFS loop: starting from a queue of visited
component pixels (each marked at enqueue time) the loop visits exactly the
component of the seed, labels it `lab`, and counts its pixels. -/
theorem bfsLoop_spec (mask : List ℚ) (width height : ℕ) (lab : ℤ)
    (V₀ : Finset ℕ) (L₀ : ℕ → ℤ) (s : ℕ)
    (hs_fg : 0 < mask.getD s 0) (hs_lt : s < width * height)
    (hdisj : ∀ q, InComp mask width height s q → q ∉ V₀) :
    ∀ (fuel : ℕ) (Q : List ℕ) (V : Finset ℕ) (L : ℕ → ℤ) (c : ℕ),
    V₀ ⊆ V →
    (∀ m ∈ V \ V₀, InComp mask width height s m) →
    Q.Nodup →
    (∀ m ∈ Q, m ∈ V \ V₀) →
    (∀ i, L i = if i ∈ V \ V₀ then lab else L₀ i) →
    c + Q.length = (V \ V₀).card →
    (∀ m ∈ V \ V₀, m ∉ Q → ∀ n, CompStep mask width height m n → n ∈ V) →
    s ∈ V →
    (∀ m ∈ V \ V₀, m < width * height) →
    Q.length + 2 * ((Finset.range (width * height) \ V).card) < fuel →
    (∀ m, m ∈ (bfsLoop mask width height lab fuel Q V L c).1 ↔
      m ∈ V₀ ∨ InComp mask width height s m) ∧
    (∀ i, InComp mask width height s i →
      (bfsLoop mask width height lab fuel Q V L c).2.1 i = lab) ∧
    (∀ i, ¬ InComp mask width height s i →
      (bfsLoop mask width height lab fuel Q V L c).2.1 i = L₀ i) ∧
    (bfsLoop mask width height lab fuel Q V L c).2.2 =
      Set.ncard (compSet mask width height s) := by
  intro fuel
  induction fuel with
  | zero =>
      intro Q V L c _ _ _ _ _ _ _ _ _ hfuel
      exact absurd hfuel (Nat.not_lt_zero _)
  | succ f ih =>
      intro Q V L c hV0 hcompE hnodup hQE hlab hcount hclosed hsV hElt hfuel
      match Q, hnodup, hQE, hcount, hclosed, hfuel with
      | [], hnodup, hQE, hcount, hclosed, hfuel =>
          rw [bfsLoop]
          have hcomp_in_V : ∀ q, InComp mask width height s q → q ∈ V := by
            intro q hq
            induction hq with
            | refl => exact hsV
            | tail hab hbc ihq =>
                exact hclosed _ (Finset.mem_sdiff.mpr ⟨ihq, hdisj _ hab⟩)
                  (List.not_mem_nil _) _ hbc
          have hEcomp : ∀ m, m ∈ V \ V₀ ↔ InComp mask width height s m := by
            intro m
            constructor
            · exact hcompE m
            · intro hm
              rw [Finset.mem_sdiff]
              exact ⟨hcomp_in_V m hm, hdisj m hm⟩
          refine ⟨?_, ?_, ?_, ?_⟩
          · intro m
            constructor
            · intro hm
              by_cases h0 : m ∈ V₀
              · exact Or.inl h0
              · exact Or.inr ((hEcomp m).mp (Finset.mem_sdiff.mpr ⟨hm, h0⟩))
            · rintro (hm | hm)
              · exact hV0 hm
              · exact hcomp_in_V m hm
          · intro i hi
            show L i = lab
            rw [hlab i, if_pos ((hEcomp i).mpr hi)]
          · intro i hi
            show L i = L₀ i
            rw [hlab i, if_neg (fun h => hi ((hEcomp i).mp h))]
          · show c = Set.ncard (compSet mask width height s)
            have hset : compSet mask width height s = ↑(V \ V₀) := by
              ext q
              exact ((hEcomp q).symm)
            rw [hset, Set.ncard_coe_Finset]
            simpa using hcount
      | curr :: rest, hnodup, hQE, hcount, hclosed, hfuel =>
          rw [bfsLoop]
          obtain ⟨news, r1, r2, r3, r4, r5, r6⟩ :=
            tryVisit_fold_spec mask width height lab (neighborList width curr) V L rest
          have hcurrE : curr ∈ V \ V₀ := hQE curr (List.mem_cons_self _ _)
          have hcurr_comp : InComp mask width height s curr :=
            hcompE curr hcurrE
          have hcurr_fg : 0 < mask.getD curr 0 :=
            fg_of_inComp mask width height s curr hs_fg hcurr_comp
          have hcurr_lt : curr < width * height := hElt curr hcurrE
          have hnews_comp : ∀ m ∈ news, InComp mask width height s m := by
            intro m hm
            obtain ⟨_, hmfg, _, n, hn, hnb, hne⟩ := r4 m hm
            have hadj := neighborList_adjIdx width height curr hcurr_lt n hn hnb
            rw [← hne] at hadj
            exact Relation.ReflTransGen.tail hcurr_comp ⟨hcurr_fg, hmfg, hadj⟩
          have hnews_notV : ∀ m ∈ news, m ∉ V := fun m hm => (r4 m hm).1
          have hnews_notV0 : ∀ m ∈ news, m ∉ V₀ :=
            fun m hm => hdisj m (hnews_comp m hm)
          have hE' : ∀ m, m ∈ (V ∪ news.toFinset) \ V₀ ↔
              m ∈ V \ V₀ ∨ m ∈ news := by
            intro m
            simp only [Finset.mem_sdiff, Finset.mem_union, List.mem_toFinset]
            constructor
            · rintro ⟨hm | hm, hm0⟩
              · exact Or.inl ⟨hm, hm0⟩
              · exact Or.inr hm
            · rintro (⟨hm, hm0⟩ | hm)
              · exact ⟨Or.inl hm, hm0⟩
              · exact ⟨Or.inr hm, hnews_notV0 m hm⟩
          have hrest_nodup : rest.Nodup := (List.nodup_cons.mp hnodup).2
          have hrestE : ∀ m ∈ rest, m ∈ V \ V₀ :=
            fun m hm => hQE m (List.mem_cons_of_mem _ hm)
          have hdisjl : ∀ a ∈ rest, a ∉ news := by
            intro a ha hanews
            exact hnews_notV a hanews (Finset.mem_sdiff.mp (hrestE a ha)).1
          have hcard_news : news.toFinset.card = news.length :=
            List.toFinset_card_of_nodup r3
          have hEcard : ((V ∪ news.toFinset) \ V₀).card =
              (V \ V₀).card + news.length := by
            have hsplit : (V ∪ news.toFinset) \ V₀ = (V \ V₀) ∪ news.toFinset := by
              ext m
              rw [Finset.mem_union, List.mem_toFinset]
              rw [hE' m]
            rw [hsplit, Finset.card_union_of_disjoint, hcard_news]
            rw [Finset.disjoint_left]
            intro a ha hanews
            rw [List.mem_toFinset] at hanews
            exact hnews_notV a hanews (Finset.mem_sdiff.mp ha).1
          have hNsub : news.toFinset ⊆ Finset.range (width * height) \ V := by
            intro a ha
            rw [List.mem_toFinset] at ha
            rw [Finset.mem_sdiff, Finset.mem_range]
            exact ⟨(r4 a ha).2.2.1, hnews_notV a ha⟩
          have hsd : Finset.range (width * height) \ (V ∪ news.toFinset) =
              (Finset.range (width * height) \ V) \ news.toFinset := by
            ext a
            simp only [Finset.mem_sdiff, Finset.mem_union]
            tauto
          have hNle : news.length ≤ (Finset.range (width * height) \ V).card := by
            rw [← hcard_news]
            exact Finset.card_le_card hNsub
          have hgoal := ih
            ((neighborList width curr).foldl (tryVisit mask width height lab) (V, L, rest)).2.2
            ((neighborList width curr).foldl (tryVisit mask width height lab) (V, L, rest)).1
            ((neighborList width curr).foldl (tryVisit mask width height lab) (V, L, rest)).2.1
            (c + 1)
            (by
              rw [r1]
              exact Finset.Subset.trans hV0 Finset.subset_union_left)
            (by
              rw [r1]
              intro m hm
              rcases (hE' m).mp hm with hm | hm
              · exact hcompE m hm
              · exact hnews_comp m hm)
            (by
              rw [r2]
              exact List.Nodup.append hrest_nodup r3 hdisjl)
            (by
              rw [r2, r1]
              intro m hm
              rcases List.mem_append.mp hm with hm | hm
              · exact (hE' m).mpr (Or.inl (hrestE m hm))
              · exact (hE' m).mpr (Or.inr hm))
            (by
              rw [r1]
              intro i
              rw [r6 i, hlab i]
              by_cases hn : i ∈ news
              · rw [if_pos hn, if_pos ((hE' i).mpr (Or.inr hn))]
              · rw [if_neg hn]
                by_cases hEi : i ∈ V \ V₀
                · rw [if_pos hEi, if_pos ((hE' i).mpr (Or.inl hEi))]
                · rw [if_neg hEi, if_neg (fun h => by
                    rcases (hE' i).mp h with h | h
                    · exact hEi h
                    · exact hn h)]
            )
            (by
              rw [r2, r1, List.length_append, hEcard]
              simp only [List.length_cons] at hcount
              omega)
            (by
              intro m hm hmQ n hstep
              rw [r1] at hm ⊢
              rw [r2] at hmQ
              rcases (hE' m).mp hm with hmE | hmN
              · by_cases hmc : m = curr
                · subst hmc
                  obtain ⟨e, he, heb, hne⟩ :=
                    neighborList_complete width height m n hstep.2.2
                  have hnfg : 0 < mask.getD ((e.2 * (width : ℤ) + e.1).toNat) 0 := by
                    rw [← hne]
                    exact hstep.2.1
                  have := r5 e he ⟨heb.1, heb.2.1, heb.2.2.1, heb.2.2.2.2⟩ hnfg
                  rw [r1] at this
                  rw [← hne] at this
                  exact this
                · have hmQ' : m ∉ curr :: rest := by
                    intro hmem
                    rcases List.mem_cons.mp hmem with h | h
                    · exact hmc h
                    · exact hmQ (List.mem_append_left _ h)
                  exact Finset.mem_union_left _ (hclosed m hmE hmQ' n hstep)
              · exact absurd (List.mem_append_right _ hmN) hmQ)
            (by
              rw [r1]
              exact Finset.mem_union_left _ hsV)
            (by
              rw [r1]
              intro m hm
              rcases (hE' m).mp hm with hm | hm
              · exact hElt m hm
              · exact (r4 m hm).2.2.1)
            (by
              rw [r2, r1, List.length_append, hsd,
                Finset.card_sdiff hNsub, hcard_news]
              simp only [List.length_cons] at hfuel
              omega)
          exact hgoal

theorem getD_mem_of_lt {α : Type} (l : List α) (k : ℕ) (d : α) (h : k < l.length) :
    l.getD k d ∈ l := by
  rw [List.getD_eq_getElem?_getD, List.getElem?_eq_getElem h, Option.getD_some]
  exact List.getElem_mem h

/-- Two self-minimal seeds whose components share a pixel are equal. -/
theorem seeds_comp_eq (mask : List ℚ) (width height : ℕ) (s1 s2 i : ℕ)
    (h1 : s1 = sInf (compSet mask width height s1))
    (h2 : s2 = sInf (compSet mask width height s2))
    (hi1 : InComp mask width height s1 i) (hi2 : InComp mask width height s2 i) :
    s1 = s2 := by
  have e1 := compMin_eq_of_mem mask width height s1 i hi1
  have e2 := compMin_eq_of_mem mask width height s2 i hi2
  rw [h1, ← e1, e2, ← h2]

/-- The scan invariant after the raster positions `< t` have been processed:
`seeds` lists, in increasing raster order, the first (minimal) pixel of every
component entirely discovered so far; `visited` is the union of those
components; `labels` maps the `k`-th component to `k+1` and everything else to
0; `currentLabel` and `componentSizes` record the count. -/
def ScanInv (mask : List ℚ) (width height t : ℕ)
    (st : Finset ℕ × (ℕ → ℤ) × ℤ × List (ℤ × ℕ)) (seeds : List ℕ) : Prop :=
  seeds.Pairwise (· < ·) ∧
  (∀ s ∈ seeds, s < t ∧ 0 < mask.getD s 0 ∧ s = sInf (compSet mask width height s)) ∧
  (∀ q, q < t → 0 < mask.getD q 0 → sInf (compSet mask width height q) ∈ seeds) ∧
  (∀ m, m ∈ st.1 ↔ ∃ s ∈ seeds, InComp mask width height s m) ∧
  (∀ k, k < seeds.length → ∀ i, InComp mask width height (seeds.getD k 0) i →
    st.2.1 i = (k : ℤ) + 1) ∧
  (∀ i, (∀ s ∈ seeds, ¬ InComp mask width height s i) → st.2.1 i = 0) ∧
  st.2.2.1 = (seeds.length : ℤ) + 1 ∧
  st.2.2.2.length = seeds.length ∧
  (∀ k, k < seeds.length → st.2.2.2.getD k (0, 0) =
    ((k : ℤ) + 1, Set.ncard (compSet mask width height (seeds.getD k 0))))

theorem scanStep_inv (mask : List ℚ) (width height : ℕ) (t : ℕ)
    (ht : t < width * height)
    (st : Finset ℕ × (ℕ → ℤ) × ℤ × List (ℤ × ℕ)) (seeds : List ℕ)
    (hinv : ScanInv mask width height t st seeds) :
    ∃ seeds', ScanInv mask width height (t + 1) (scanStep mask width height st t) seeds' := by
  obtain ⟨hpw, hseeds, hfound, hV, hLpos, hLzero, hcur, hslen, hsizes⟩ := hinv
  by_cases hcond : 0 < mask.getD t 0 ∧ t ∉ st.1
  · -- new component seeded at t
    have htMin : sInf (compSet mask width height t) = t := by
      have h1 : sInf (compSet mask width height t) ≤ t :=
        compMin_le mask width height t t Relation.ReflTransGen.refl
      rcases Nat.lt_or_ge (sInf (compSet mask width height t)) t with hlt | hge
      · exfalso
        set m := sInf (compSet mask width height t) with hm
        have hmC : InComp mask width height t m :=
          compMin_mem mask width height t
        have hmfg : 0 < mask.getD m 0 :=
          fg_of_inComp mask width height t m hcond.1 hmC
        have hmm : sInf (compSet mask width height m) = m := by
          rw [compMin_eq_of_mem mask width height t m hmC, ← hm]
        have : m ∈ seeds := by
          have := hfound m hlt hmfg
          rwa [hmm] at this
        have htV : t ∈ st.1 := by
          rw [hV]
          exact ⟨m, this, inComp_symm mask width height t m hmC⟩
        exact hcond.2 htV
      · omega
    have hdisj : ∀ q, InComp mask width height t q → q ∉ st.1 := by
      intro q hq hqV
      rw [hV] at hqV
      obtain ⟨s, hs, hsq⟩ := hqV
      have : s = t := seeds_comp_eq mask width height s t q
        (hseeds s hs).2.2 htMin.symm hsq hq
      have := (hseeds s hs).1
      omega
    have hE1 : ∀ m, m ∈ insert t st.1 \ st.1 ↔ m = t := by
      intro m
      rw [Finset.mem_sdiff, Finset.mem_insert]
      constructor
      · rintro ⟨rfl | hm, hm2⟩
        · rfl
        · exact absurd hm hm2
      · rintro rfl
        exact ⟨Or.inl rfl, hcond.2⟩
    have hbfs := bfsLoop_spec mask width height st.2.2.1 st.1 st.2.1 t
      hcond.1 ht hdisj (2 * (width * height) + 2) [t] (insert t st.1)
      (fun i => if i = t then st.2.2.1 else st.2.1 i) 0
      (Finset.subset_insert _ _)
      (by
        intro m hm
        rw [hE1 m] at hm
        subst hm
        exact Relation.ReflTransGen.refl)
      (List.nodup_singleton _)
      (by
        intro m hm
        rw [List.mem_singleton] at hm
        subst hm
        rw [hE1]
      )
      (by
        intro i
        show (if i = t then st.2.2.1 else st.2.1 i) =
          if i ∈ insert t st.1 \ st.1 then st.2.2.1 else st.2.1 i
        by_cases hi : i = t
        · rw [if_pos hi, if_pos (by rw [hE1]; exact hi)]
        · rw [if_neg hi, if_neg (by rw [hE1]; exact hi)])
      (by
        rw [show insert t st.1 \ st.1 = {t} from by
          ext m
          rw [hE1, Finset.mem_singleton]]
        simp)
      (by
        intro m hm hmQ n _
        rw [hE1 m] at hm
        subst hm
        exact absurd (List.mem_singleton_self _) hmQ)
      (Finset.mem_insert_self _ _)
      (by
        intro m hm
        rw [hE1 m] at hm
        subst hm
        exact ht)
      (by
        have hle : (Finset.range (width * height) \ insert t st.1).card ≤ width * height := by
          calc (Finset.range (width * height) \ insert t st.1).card
              ≤ (Finset.range (width * height)).card :=
                Finset.card_le_card (Finset.sdiff_subset)
            _ = width * height := Finset.card_range _
        simp only [List.length_singleton]
        omega)
    obtain ⟨b1, b2, b3, b4⟩ := hbfs
    have hstep : scanStep mask width height st t =
        ((bfsLoop mask width height st.2.2.1 (2 * (width * height) + 2) [t]
          (insert t st.1) (fun i => if i = t then st.2.2.1 else st.2.1 i) 0).1,
         (bfsLoop mask width height st.2.2.1 (2 * (width * height) + 2) [t]
          (insert t st.1) (fun i => if i = t then st.2.2.1 else st.2.1 i) 0).2.1,
         st.2.2.1 + 1,
         st.2.2.2 ++ [(st.2.2.1,
          (bfsLoop mask width height st.2.2.1 (2 * (width * height) + 2) [t]
            (insert t st.1) (fun i => if i = t then st.2.2.1 else st.2.1 i) 0).2.2)]) := by
      simp only [scanStep]
      rw [if_pos hcond]
    rw [hstep]
    refine ⟨seeds ++ [t], ?_, ?_, ?_, ?_, ?_, ?_, ?_, ?_, ?_⟩
    · refine List.pairwise_append.mpr ⟨hpw, List.pairwise_singleton _ _, ?_⟩
      intro a ha b hb
      rw [List.mem_singleton] at hb
      subst hb
      exact (hseeds a ha).1
    · intro s hs
      rcases List.mem_append.mp hs with hs | hs
      · obtain ⟨h1, h2, h3⟩ := hseeds s hs
        exact ⟨Nat.lt_succ_of_lt h1, h2, h3⟩
      · rw [List.mem_singleton] at hs
        subst hs
        exact ⟨Nat.lt_succ_self _, hcond.1, htMin.symm⟩
    · intro q hq hqfg
      rcases Nat.lt_or_ge q t with hlt | hge
      · exact List.mem_append_left _ (hfound q hlt hqfg)
      · have hqt : q = t := by omega
        subst hqt
        rw [htMin]
        exact List.mem_append_right _ (List.mem_singleton_self _)
    · intro m
      rw [b1 m, hV m]
      constructor
      · rintro (⟨s, hs, hsm⟩ | hm)
        · exact ⟨s, List.mem_append_left _ hs, hsm⟩
        · exact ⟨t, List.mem_append_right _ (List.mem_singleton_self _), hm⟩
      · rintro ⟨s, hs, hsm⟩
        rcases List.mem_append.mp hs with hs | hs
        · exact Or.inl ⟨s, hs, hsm⟩
        · rw [List.mem_singleton] at hs
          subst hs
          exact Or.inr hsm
    · intro k hk i hi
      rw [List.length_append, List.length_singleton] at hk
      rcases Nat.lt_or_ge k seeds.length with hk1 | hk1
      · have hgetd : (seeds ++ [t]).getD k 0 = seeds.getD k 0 := by
          rw [List.getD_eq_getElem?_getD, List.getD_eq_getElem?_getD,
            List.getElem?_append_left hk1]
        rw [hgetd] at hi
        have hnot : ¬ InComp mask width height t i := by
          intro hti
          have : seeds.getD k 0 = t := seeds_comp_eq mask width height _ t i
            (hseeds _ (getD_mem_of_lt seeds k 0 hk1)).2.2 htMin.symm hi hti
          have := (hseeds _ (getD_mem_of_lt seeds k 0 hk1)).1
          omega
        rw [b3 i hnot]
        exact hLpos k hk1 i hi
      · have hkeq : k = seeds.length := by omega
        subst hkeq
        have hgetd : (seeds ++ [t]).getD seeds.length 0 = t := by
          rw [List.getD_eq_getElem?_getD, List.getElem?_append_right (le_refl _)]
          simp
        rw [hgetd] at hi
        rw [b2 i hi, hcur]
    · intro i hnone
      have hnot : ¬ InComp mask width height t i :=
        hnone t (List.mem_append_right _ (List.mem_singleton_self _))
      rw [b3 i hnot]
      exact hLzero i (fun s hs => hnone s (List.mem_append_left _ hs))
    · rw [hcur, List.length_append, List.length_singleton]
      push_cast
      ring
    · simp [List.length_append, hslen]
    · intro k hk
      rw [List.length_append, List.length_singleton] at hk
      rcases Nat.lt_or_ge k seeds.length with hk1 | hk1
      · have hgetd1 : (st.2.2.2 ++ [(st.2.2.1,
            (bfsLoop mask width height st.2.2.1 (2 * (width * height) + 2) [t]
              (insert t st.1) (fun i => if i = t then st.2.2.1 else st.2.1 i) 0).2.2)]).getD
            k (0, 0) = st.2.2.2.getD k (0, 0) := by
          rw [List.getD_eq_getElem?_getD, List.getD_eq_getElem?_getD,
            List.getElem?_append_left (by rw [hslen]; exact hk1)]
        have hgetd2 : (seeds ++ [t]).getD k 0 = seeds.getD k 0 := by
          rw [List.getD_eq_getElem?_getD, List.getD_eq_getElem?_getD,
            List.getElem?_append_left hk1]
        rw [hgetd1, hgetd2]
        exact hsizes k hk1
      · have hkeq : k = seeds.length := by omega
        subst hkeq
        have hgetd1 : (st.2.2.2 ++ [(st.2.2.1,
            (bfsLoop mask width height st.2.2.1 (2 * (width * height) + 2) [t]
              (insert t st.1) (fun i => if i = t then st.2.2.1 else st.2.1 i) 0).2.2)]).getD
            seeds.length (0, 0) = (st.2.2.1,
            (bfsLoop mask width height st.2.2.1 (2 * (width * height) + 2) [t]
              (insert t st.1) (fun i => if i = t then st.2.2.1 else st.2.1 i) 0).2.2) := by
          rw [List.getD_eq_getElem?_getD,
            List.getElem?_append_right (by rw [hslen])]
          rw [hslen]
          simp
        have hgetd2 : (seeds ++ [t]).getD seeds.length 0 = t := by
          rw [List.getD_eq_getElem?_getD, List.getElem?_append_right (le_refl _)]
          simp
        rw [hgetd1, hgetd2, b4, hcur]
  · -- no new component
    have hstep : scanStep mask width height st t = st := by
      simp only [scanStep]
      rw [if_neg hcond]
    rw [hstep]
    refine ⟨seeds, hpw, ?_, ?_, hV, hLpos, hLzero, hcur, hslen, hsizes⟩
    · intro s hs
      obtain ⟨h1, h2, h3⟩ := hseeds s hs
      exact ⟨Nat.lt_succ_of_lt h1, h2, h3⟩
    · intro q hq hqfg
      rcases Nat.lt_or_ge q t with hlt | hge
      · exact hfound q hlt hqfg
      · have hqt : q = t := by omega
        rw [hqt] at hqfg ⊢
        have htV : t ∈ st.1 := by
          by_contra hnV
          exact hcond ⟨hqfg, hnV⟩
        rw [hV] at htV
        obtain ⟨s, hs, hst⟩ := htV
        have : sInf (compSet mask width height t) = s := by
          rw [compMin_eq_of_mem mask width height s t hst]
          exact ((hseeds s hs).2.2).symm
        rw [this]
        exact hs

theorem scan_range_inv (mask : List ℚ) (width height : ℕ) :
    ∀ (n t : ℕ) (st : Finset ℕ × (ℕ → ℤ) × ℤ × List (ℤ × ℕ)) (seeds : List ℕ),
    ScanInv mask width height t st seeds → t + n ≤ width * height →
    ∃ seeds', ScanInv mask width height (t + n)
      ((List.range' t n).foldl (scanStep mask width height) st) seeds' := by
  intro n
  induction n with
  | zero =>
      intro t st seeds hinv _
      exact ⟨seeds, by simpa using hinv⟩
  | succ m ih =>
      intro t st seeds hinv hle
      rw [List.range'_succ, List.foldl_cons]
      obtain ⟨seeds1, hinv1⟩ := scanStep_inv mask width height t (by omega) st seeds hinv
      obtain ⟨seeds2, hinv2⟩ := ih (t + 1) _ seeds1 hinv1 (by omega)
      refine ⟨seeds2, ?_⟩
      rwa [show t + 1 + m = t + (m + 1) from by omega] at hinv2

theorem scanComponents_inv (mask : List ℚ) (width height : ℕ) :
    ∃ seeds, ScanInv mask width height (width * height)
      (scanComponents mask width height) seeds := by
  have h0 : ScanInv mask width height 0
      ((∅ : Finset ℕ), fun _ => (0 : ℤ), (1 : ℤ), ([] : List (ℤ × ℕ))) [] := by
    refine ⟨List.Pairwise.nil, ?_, ?_, ?_, ?_, ?_, ?_, ?_, ?_⟩
    · intro s hs
      exact absurd hs (List.not_mem_nil _)
    · intro q hq
      omega
    · intro m
      simp
    · intro k hk
      simp at hk
    · intro i _
      rfl
    · norm_num
    · rfl
    · intro k hk
      simp at hk
  rw [scanComponents, List.range_eq_range']
  obtain ⟨seeds, h⟩ := scan_range_inv mask width height (width * height) 0 _ [] h0
    (by omega)
  exact ⟨seeds, by simpa using h⟩

theorem selectFold_spec :
    ∀ (l : List (ℤ × ℕ)) (accL accS : ℤ),
    (l.foldl (fun acc e => if (e.2 : ℤ) > acc.2 then (e.1, (e.2 : ℤ)) else acc)
        (accL, accS) = (accL, accS) ∧ (∀ e ∈ l, (e.2 : ℤ) ≤ accS)) ∨
    (∃ J, J < l.length ∧
      l.foldl (fun acc e => if (e.2 : ℤ) > acc.2 then (e.1, (e.2 : ℤ)) else acc)
        (accL, accS) = ((l.getD J (0, 0)).1, ((l.getD J (0, 0)).2 : ℤ)) ∧
      accS < ((l.getD J (0, 0)).2 : ℤ) ∧
      (∀ k, k < l.length → (l.getD k (0, 0)).2 ≤ (l.getD J (0, 0)).2) ∧
      (∀ k, k < J → (l.getD k (0, 0)).2 < (l.getD J (0, 0)).2)) := by
  intro l
  induction l with
  | nil =>
      intro accL accS
      exact Or.inl ⟨rfl, fun e he => absurd he (List.not_mem_nil _)⟩
  | cons e rest ih =>
      intro accL accS
      rw [List.foldl_cons]
      by_cases he : (e.2 : ℤ) > accS
      · rw [if_pos he]
        rcases ih e.1 (e.2 : ℤ) with ⟨heq, hall⟩ | ⟨J', hJ', heq, hgt, hall, hstrict⟩
        · refine Or.inr ⟨0, Nat.succ_pos _, ?_, ?_, ?_, ?_⟩
          · rw [List.getD_cons_zero]
            exact heq
          · rw [List.getD_cons_zero]
            exact he
          · intro k hk
            match k with
            | 0 => exact le_refl _
            | k + 1 =>
                rw [List.getD_cons_succ, List.getD_cons_zero]
                have := hall _ (getD_mem_of_lt rest k (0, 0) (by
                  rw [List.length_cons] at hk
                  omega))
                exact_mod_cast this
          · intro k hk
            omega
        · refine Or.inr ⟨J' + 1, by simpa using Nat.succ_lt_succ hJ', ?_, ?_, ?_, ?_⟩
          · rw [List.getD_cons_succ]
            exact heq
          · rw [List.getD_cons_succ]
            calc accS < (e.2 : ℤ) := he
              _ < _ := hgt
          · intro k hk
            match k with
            | 0 =>
                rw [List.getD_cons_zero, List.getD_cons_succ]
                have : (e.2 : ℤ) < ((rest.getD J' (0, 0)).2 : ℤ) := hgt
                exact_mod_cast le_of_lt this
            | k + 1 =>
                rw [List.getD_cons_succ, List.getD_cons_succ]
                exact hall k (by rw [List.length_cons] at hk; omega)
          · intro k hk
            match k with
            | 0 =>
                rw [List.getD_cons_zero, List.getD_cons_succ]
                have : (e.2 : ℤ) < ((rest.getD J' (0, 0)).2 : ℤ) := hgt
                exact_mod_cast this
            | k + 1 =>
                rw [List.getD_cons_succ, List.getD_cons_succ]
                exact hstrict k (by omega)
      · rw [if_neg he]
        push_neg at he
        rcases ih accL accS with ⟨heq, hall⟩ | ⟨J', hJ', heq, hgt, hall, hstrict⟩
        · refine Or.inl ⟨heq, ?_⟩
          intro x hx
          rcases List.mem_cons.mp hx with rfl | hx
          · exact he
          · exact hall x hx
        · refine Or.inr ⟨J' + 1, by simpa using Nat.succ_lt_succ hJ', ?_, ?_, ?_, ?_⟩
          · rw [List.getD_cons_succ]
            exact heq
          · rw [List.getD_cons_succ]
            exact hgt
          · intro k hk
            match k with
            | 0 =>
                rw [List.getD_cons_zero, List.getD_cons_succ]
                have : (e.2 : ℤ) < ((rest.getD J' (0, 0)).2 : ℤ) :=
                  lt_of_le_of_lt he hgt
                exact_mod_cast le_of_lt this
            | k + 1 =>
                rw [List.getD_cons_succ, List.getD_cons_succ]
                exact hall k (by rw [List.length_cons] at hk; omega)
          · intro k hk
            match k with
            | 0 =>
                rw [List.getD_cons_zero, List.getD_cons_succ]
                have : (e.2 : ℤ) < ((rest.getD J' (0, 0)).2 : ℤ) :=
                  lt_of_le_of_lt he hgt
                exact_mod_cast this
            | k + 1 =>
                rw [List.getD_cons_succ, List.getD_cons_succ]
                exact hstrict k (by omega)

/-- Full characterization of `filterLargestComponent`: the output has length
`width*height`; with no foreground pixel every entry is the sentinel `-10`;
otherwise there is a winning foreground pixel `p` whose component has maximal
size — with ties broken in favor of the component whose first (minimal raster
index) pixel is smallest — such that the output keeps the original mask value
exactly on the component of `p` and is `-10` elsewhere. -/
theorem flc_spec (mask : List ℚ) (width height : ℕ) :
    (filterLargestComponent mask width height).length = width * height ∧
    ((∀ i, i < width * height → ¬ 0 < mask.getD i 0) →
      ∀ i, i < width * height →
        (filterLargestComponent mask width height).getD i 0 = -10) ∧
    ((∃ i, i < width * height ∧ 0 < mask.getD i 0) →
      ∃ p, p < width * height ∧ 0 < mask.getD p 0 ∧
        (∀ q, q < width * height → 0 < mask.getD q 0 →
          Set.ncard (compSet mask width height q) ≤
            Set.ncard (compSet mask width height p) ∧
          (¬ InComp mask width height p q →
            Set.ncard (compSet mask width height q) =
              Set.ncard (compSet mask width height p) →
            sInf (compSet mask width height p) < sInf (compSet mask width height q))) ∧
        (∀ i, i < width * height → InComp mask width height p i →
          (filterLargestComponent mask width height).getD i 0 = mask.getD i 0) ∧
        (∀ i, i < width * height → ¬ InComp mask width height p i →
          (filterLargestComponent mask width height).getD i 0 = -10)) := by
  obtain ⟨seeds, hpw, hseeds, hfound, hV, hLpos, hLzero, hcur, hslen, hsizes⟩ :=
    scanComponents_inv mask width height
  refine ⟨by simp [filterLargestComponent], ?_, ?_⟩
  · -- no foreground at all
    intro hnofg i hi
    have hseeds_nil : seeds = [] := by
      cases seeds with
      | nil => rfl
      | cons a l =>
          exfalso
          obtain ⟨ha1, ha2, _⟩ := hseeds a (List.mem_cons_self _ _)
          exact hnofg a ha1 ha2
    have hsizes_nil : (scanComponents mask width height).2.2.2 = [] := by
      rw [← List.length_eq_zero, hslen, hseeds_nil]
      rfl
    have hL0 : (scanComponents mask width height).2.1 i = 0 := by
      refine hLzero i ?_
      rw [hseeds_nil]
      intro s hs
      exact absurd hs (List.not_mem_nil _)
    simp only [filterLargestComponent]
    rw [getD_map_range _ _ _ hi, hsizes_nil, hL0]
    norm_num [selectMax]
  · rintro ⟨w0, hw0lt, hw0fg⟩
    have hw0min := hfound w0 hw0lt hw0fg
    have hsne : seeds ≠ [] := List.ne_nil_of_mem hw0min
    have hsplen : 0 < (scanComponents mask width height).2.2.2.length := by
      rw [hslen]
      exact List.length_pos.mpr hsne
    rcases selectFold_spec (scanComponents mask width height).2.2.2 (-1) (-1) with
      ⟨_, hall⟩ | ⟨J, hJ, heq, _, hall, hstrict⟩
    · exfalso
      have hmem := getD_mem_of_lt (scanComponents mask width height).2.2.2 0 (0, 0) hsplen
      have := hall _ hmem
      have h0 : (0 : ℤ) ≤ (((scanComponents mask width height).2.2.2.getD 0 (0, 0)).2 : ℤ) :=
        Int.natCast_nonneg _
      omega
    · have hJs : J < seeds.length := by rwa [hslen] at hJ
      have hentry := hsizes J hJs
      set p := seeds.getD J 0 with hp
      have hpmem : p ∈ seeds := getD_mem_of_lt seeds J 0 hJs
      obtain ⟨hplt, hpfg, hpmin⟩ := hseeds p hpmem
      have hmaxLabel : (selectMax (scanComponents mask width height).2.2.2).1 =
          (J : ℤ) + 1 := by
        rw [selectMax, heq, hentry]
      have hnp : Set.ncard (compSet mask width height p) =
          ((scanComponents mask width height).2.2.2.getD J (0, 0)).2 := by
        rw [hentry]
      refine ⟨p, hplt, hpfg, ?_, ?_, ?_⟩
      · intro q hq hqfg
        have hmq := hfound q hq hqfg
        obtain ⟨k, hk, hkeq⟩ := List.getElem_of_mem hmq
        have hkgetD : seeds.getD k 0 = sInf (compSet mask width height q) := by
          rw [List.getD_eq_getElem?_getD, List.getElem?_eq_getElem hk,
            Option.getD_some, hkeq]
        have hmqc : InComp mask width height q (sInf (compSet mask width height q)) :=
          compMin_mem mask width height q
        have hcompq_eq : compSet mask width height (sInf (compSet mask width height q)) =
            compSet mask width height q :=
          compSet_eq_of_mem mask width height q _ hmqc
        have hsizek := hsizes k hk
        have hnq : Set.ncard (compSet mask width height q) =
            ((scanComponents mask width height).2.2.2.getD k (0, 0)).2 := by
          rw [hsizek, hkgetD, hcompq_eq]
        constructor
        · rw [hnq, hnp]
          exact hall k (by rw [hslen]; exact hk)
        · intro hnotin heqsz
          have hkJ : k ≠ J := by
            intro hkJ
            apply hnotin
            have hpeq : p = sInf (compSet mask width height q) := by
              rw [hkJ] at hkgetD
              rw [hp]
              exact hkgetD
            rw [hpeq]
            exact inComp_symm mask width height q _ hmqc
          have hJk : J < k := by
            rcases Nat.lt_or_ge k J with h | h
            · exfalso
              have := hstrict k h
              rw [← hnq, ← hnp] at this
              omega
            · omega
          have hlt : seeds.getD J 0 < seeds.getD k 0 := by
            have hpg := List.pairwise_iff_getElem.mp hpw J k hJs hk hJk
            rwa [List.getD_eq_getElem?_getD, List.getElem?_eq_getElem hJs,
              Option.getD_some, List.getD_eq_getElem?_getD,
              List.getElem?_eq_getElem hk, Option.getD_some]
          rw [← hpmin, ← hkgetD]
          exact hlt
      · intro i hi hin
        simp only [filterLargestComponent]
        rw [getD_map_range _ _ _ hi]
        have hLi : (scanComponents mask width height).2.1 i = (J : ℤ) + 1 :=
          hLpos J hJs i hin
        rw [hLi, hmaxLabel, if_pos rfl]
      · intro i hi hnin
        simp only [filterLargestComponent]
        rw [getD_map_range _ _ _ hi, hmaxLabel]
        by_cases hex : ∃ s ∈ seeds, InComp mask width height s i
        · obtain ⟨sx, hs, hsi⟩ := hex
          obtain ⟨ks, hks, hkseq⟩ := List.getElem_of_mem hs
          have hksget : seeds.getD ks 0 = sx := by
            rw [List.getD_eq_getElem?_getD, List.getElem?_eq_getElem hks,
              Option.getD_some, hkseq]
          have hLi : (scanComponents mask width height).2.1 i = (ks : ℤ) + 1 :=
            hLpos ks hks i (by rw [hksget]; exact hsi)
          have hksJ : ks ≠ J := by
            intro h
            apply hnin
            have : p = sx := by
              rw [hp, ← h]
              exact hksget
            rw [this]
            exact hsi
          rw [hLi, if_neg (by
            intro h
            apply hksJ
            omega)]
        · push_neg at hex
          have hLi : (scanComponents mask width height).2.1 i = 0 := hLzero i hex
          rw [hLi, if_neg (by intro h; omega)]

/-! ### C3: the largest component is kept, everything else becomes the sentinel -/

/-- C3: for every mask of length `width*height`, `filterLargestComponent` returns a
fresh mask of the same size (the input is never mutated: the embedding is a pure
function of the input list); if the mask has at least one foreground entry
(`> 0`) there is a foreground pixel `p` whose 4-connected component has maximal
size — ties among equal-size components broken in favor of the component whose
first pixel (its minimal flat index, i.e. the earliest in raster scan order) is
smallest — such that every pixel of that component keeps its original mask value
in the output and every pixel outside it is set to the sentinel `-10`; if the
mask has no foreground entry, every output pixel is `-10`. -/
theorem filterLargestComponent_keeps_largest_component (mask : List ℚ)
    (width height : ℕ) (hlen : mask.length = width * height) :
    (filterLargestComponent mask width height).length = width * height ∧
    ((∀ i, i < width * height → ¬ 0 < mask.getD i 0) →
      ∀ i, i < width * height →
        (filterLargestComponent mask width height).getD i 0 = -10) ∧
    ((∃ i, i < width * height ∧ 0 < mask.getD i 0) →
      ∃ p, p < width * height ∧ 0 < mask.getD p 0 ∧
        (∀ q, q < width * height → 0 < mask.getD q 0 →
          Set.ncard (compSet mask width height q) ≤
            Set.ncard (compSet mask width height p) ∧
          (¬ InComp mask width height p q →
            Set.ncard (compSet mask width height q) =
              Set.ncard (compSet mask width height p) →
            sInf (compSet mask width height p) < sInf (compSet mask width height q))) ∧
        (∀ i, i < width * height → InComp mask width height p i →
          (filterLargestComponent mask width height).getD i 0 = mask.getD i 0) ∧
        (∀ i, i < width * height → ¬ InComp mask width height p i →
          (filterLargestComponent mask width height).getD i 0 = -10)) :=
  flc_spec mask width height

theorem filterLargestComponent_keeps_largest_component_witness :
    ([(1 : ℚ), 2, 0, 0] : List ℚ).length = 2 * 2 ∧
    (filterLargestComponent [1, 2, 0, 0] 2 2).length = 2 * 2 :=
  ⟨by decide,
    (filterLargestComponent_keeps_largest_component [1, 2, 0, 0] 2 2 (by decide)).1⟩

/-! ### C6: no dimension validation happens -/

/-- C6: the code performs no validation of its dimension arguments. A mask whose
length does not match `width*height` is processed anyway: the empty mask with
claimed size 2×2 silently yields a full 2×2 sentinel mask, and a non-empty mask
with claimed width 0 silently yields the empty mask, instead of an error being
reported before any indexed access (the embedding models the out-of-bounds reads
`maskData[idx]`, which yield `undefined` in JS and compare as falsy, by
`List.getD _ _ 0`). -/
theorem filterLargestComponent_no_dimension_validation :
    filterLargestComponent [] 2 2 = [-10, -10, -10, -10] ∧
    filterLargestComponent [1, 2] 0 5 = [] := by
  constructor
  · decide
  · decide

/-! ### C10: filterLargestComponent is idempotent -/

/-- C10: applying `filterLargestComponent` to its own output (with the same
dimensions) returns that output unchanged: the surviving component is the unique
foreground component of the filtered mask and is kept verbatim, and all sentinel
pixels stay at the sentinel. -/
theorem filterLargestComponent_idempotent (mask : List ℚ) (width height : ℕ)
    (hlen : mask.length = width * height) :
    filterLargestComponent (filterLargestComponent mask width height) width height =
      filterLargestComponent mask width height := by
  obtain ⟨hlen1, hempty1, hnon1⟩ := flc_spec mask width height
  obtain ⟨hlen2, hempty2, hnon2⟩ := flc_spec (filterLargestComponent mask width height)
    width height
  by_cases hfg : ∃ i, i < width * height ∧ 0 < mask.getD i 0
  · obtain ⟨p, hplt, hpfg, hmax, hkeep, hsent⟩ := hnon1 hfg
    -- the output's foreground is exactly the winning component
    have hfg' : ∀ i, 0 < (filterLargestComponent mask width height).getD i 0 ↔
        (i < width * height ∧ InComp mask width height p i) := by
      intro i
      constructor
      · intro hi
        by_cases hisz : i < width * height
        · by_cases hic : InComp mask width height p i
          · exact ⟨hisz, hic⟩
          · rw [hsent i hisz hic] at hi
            norm_num at hi
        · exfalso
          rw [List.getD_eq_default] at hi
          · exact lt_irrefl _ hi
          · rw [hlen1]
            omega
      · rintro ⟨hisz, hic⟩
        rw [hkeep i hisz hic]
        exact fg_of_inComp mask width height p i hpfg hic
    -- a step over the output is a step inside the winning component of the input
    have hstep_iff : ∀ a b,
        CompStep (filterLargestComponent mask width height) width height a b ↔
        (InComp mask width height p a ∧ InComp mask width height p b ∧
          adjIdx width height a b) := by
      intro a b
      constructor
      · rintro ⟨ha, hb, hadj⟩
        exact ⟨((hfg' a).mp ha).2, ((hfg' b).mp hb).2, hadj⟩
      · rintro ⟨ha, hb, hadj⟩
        exact ⟨(hfg' a).mpr ⟨(adjIdx_lt width height a b hadj).1, ha⟩,
          (hfg' b).mpr ⟨(adjIdx_lt width height a b hadj).2, hb⟩, hadj⟩
    have hforward : ∀ q, InComp mask width height p q →
        InComp (filterLargestComponent mask width height) width height p q := by
      intro q hq
      induction hq with
      | refl => exact Relation.ReflTransGen.refl
      | tail hab hbc ih =>
          exact Relation.ReflTransGen.tail ih
            ((hstep_iff _ _).mpr ⟨hab, Relation.ReflTransGen.tail hab hbc, hbc.2.2⟩)
    have hback : ∀ q,
        InComp (filterLargestComponent mask width height) width height p q →
        InComp mask width height p q := by
      intro q hq
      induction hq with
      | refl => exact Relation.ReflTransGen.refl
      | tail _ hbc _ =>
          exact ((hstep_iff _ _).mp hbc).2.1
    have hfgout : ∃ i, i < width * height ∧
        0 < (filterLargestComponent mask width height).getD i 0 :=
      ⟨p, hplt, (hfg' p).mpr ⟨hplt, Relation.ReflTransGen.refl⟩⟩
    obtain ⟨p2, hp2lt, hp2fg, _, hkeep2, hsent2⟩ := hnon2 hfgout
    have hp2in : InComp mask width height p p2 := ((hfg' p2).mp hp2fg).2
    -- the second run's winning component coincides with the first run's
    have hcomp2 : ∀ i,
        InComp (filterLargestComponent mask width height) width height p2 i ↔
        InComp mask width height p i := by
      intro i
      constructor
      · intro hi
        exact hback i (inComp_trans (filterLargestComponent mask width height)
          width height p p2 i (hforward p2 hp2in) hi)
      · intro hi
        exact inComp_trans (filterLargestComponent mask width height) width height
          p2 p i (inComp_symm (filterLargestComponent mask width height) width height
            p p2 (hforward p2 hp2in)) (hforward i hi)
    apply list_eq_of_getD_rat _ _ (by rw [hlen2, hlen1])
    intro k
    by_cases hk : k < width * height
    · by_cases hkc : InComp mask width height p k
      · rw [hkeep2 k hk ((hcomp2 k).mpr hkc)]
      · rw [hsent2 k hk (fun h => hkc ((hcomp2 k).mp h)), hsent k hk hkc]
    · rw [List.getD_eq_default, List.getD_eq_default]
      · rw [hlen1]
        omega
      · rw [hlen2]
        omega
  · push_neg at hfg
    have hnofg : ∀ i, i < width * height → ¬ 0 < mask.getD i 0 := by
      intro i hi
      exact not_lt.mpr (hfg i hi)
    have hout1 := hempty1 hnofg
    have hfg2 : ∀ i, i < width * height →
        ¬ 0 < (filterLargestComponent mask width height).getD i 0 := by
      intro i hi
      rw [hout1 i hi]
      norm_num
    have hout2 := hempty2 hfg2
    apply list_eq_of_getD_rat _ _ (by rw [hlen2, hlen1])
    intro k
    by_cases hk : k < width * height
    · rw [hout2 k hk, hout1 k hk]
    · rw [List.getD_eq_default, List.getD_eq_default]
      · rw [hlen1]
        omega
      · rw [hlen2]
        omega

theorem filterLargestComponent_idempotent_witness :
    ([(1 : ℚ), 0, 0, 2] : List ℚ).length = 2 * 2 ∧
    filterLargestComponent (filterLargestComponent [1, 0, 0, 2] 2 2) 2 2 =
      filterLargestComponent [1, 0, 0, 2] 2 2 :=
  ⟨by decide, filterLargestComponent_idempotent [1, 0, 0, 2] 2 2 (by decide)⟩

end SnapLab
